import Mathlib

/-
Verification of the text-editing core of the typst-editor repository.

The development shallowly embeds the editor-core buffer (buffer.rs), the
bidi-text cursor movement (cursor.rs), and the undo-history / selection
models.  Text is represented as `List Char` (one entry per Unicode
codepoint, matching ropey's char indexing).  The two external libraries the
buffer relies on are modelled concretely:

* `seg` models unicode-segmentation's grapheme clustering, restricted to
  the character classes Other / Extend (U+0300..U+036F) / Control / CR / LF
  of UAX #29 (rules GB3, GB4, GB5, GB9, GB999).  On texts drawn from these
  classes it computes exactly the library's cluster decomposition.
* `splitLines` models ropey's line decomposition (default features):
  lines end after LF, VT, FF, CR, NEL, LS, PS, with CRLF treated as a
  single line break; each line includes its terminating break and there is
  always at least one (possibly empty) line.
-/

set_option linter.unusedVariables false

namespace Ed

/-- A (line, grapheme-column) location.  The Position value type of the
selection model; its source file is absent from the sources, the shape
follows the spec's data model (line and column are non-negative integers,
column counts grapheme clusters). -/
structure Position where
  line : Nat
  column : Nat
deriving DecidableEq, Repr

def Position.new (line column : Nat) : Position := ⟨line, column⟩

/-- Lexicographic order on positions (line, then column). -/
def posLe (p q : Position) : Bool :=
  decide (p.line < q.line ∨ (p.line = q.line ∧ p.column ≤ q.column))

/-- Modelled from the spec: the error type of editor-core's lib.rs is not
among the sources; the constructors follow the spec's error taxonomy and
the uses in buffer.rs. -/
inductive EditorError where
  | InvalidPosition (line column : Nat)
  | InvalidRange (msg : String)
  | BufferError (msg : String)
deriving DecidableEq, Repr

instance {e a : Type} [DecidableEq e] [DecidableEq a] : DecidableEq (Except e a) :=
  fun x y =>
  match x, y with
  | .ok v, .ok w =>
    if h : v = w then isTrue (h ▸ rfl) else isFalse (fun hh => h (Except.ok.inj hh))
  | .error v, .error w =>
    if h : v = w then isTrue (h ▸ rfl) else isFalse (fun hh => h (Except.error.inj hh))
  | .ok _, .error _ => isFalse (fun hh => Except.noConfusion hh)
  | .error _, .ok _ => isFalse (fun hh => Except.noConfusion hh)

def charVT : Char := Char.ofNat 0x0B
def charFF : Char := Char.ofNat 0x0C
def charNEL : Char := Char.ofNat 0x85
def charLS : Char := Char.ofNat 0x2028
def charPS : Char := Char.ofNat 0x2029
def charCombiningAcute : Char := Char.ofNat 0x301

/-- The line-break characters ropey recognizes with its default features. -/
def isLineBreakChar (c : Char) : Bool :=
  c == '\n' || c == '\r' || c == charVT || c == charFF ||
  c == charNEL || c == charLS || c == charPS

/-- Characters modelled with Grapheme_Cluster_Break = Extend
(the combining diacritical marks block). -/
def isExtendChar (c : Char) : Bool :=
  decide (0x300 ≤ c.toNat) && decide (c.toNat ≤ 0x36F)

/-- Characters modelled with Grapheme_Cluster_Break = Control / CR / LF. -/
def isGcbControl (c : Char) : Bool :=
  isLineBreakChar c || decide (c.toNat < 0x20) || c == Char.ofNat 0x7F

/-- Grapheme-cluster boundary between two adjacent characters: UAX #29
restricted to the modelled classes — no break inside CRLF (GB3), no break
before Extend except after Control/CR/LF (GB9 after GB4), break otherwise
(GB4, GB5, GB999). -/
def graphemeBoundary (a b : Char) : Bool :=
  if a == '\r' && b == '\n' then false
  else if isExtendChar b && !isGcbControl a then false
  else true

/-- Grapheme segmentation of a piece of text, as unicode-segmentation's
`graphemes(true)` iterator produces it on the modelled classes: split
between every adjacent pair admitting a boundary. -/
def seg : List Char → List (List Char)
  | [] => []
  | [c] => [[c]]
  | a :: b :: rest =>
    match seg (b :: rest) with
    | [] => [[a]]
    | g :: gs => if graphemeBoundary a b then [a] :: g :: gs else (a :: g) :: gs

/-- Decomposition of text into lines, as ropey exposes it: every line but
the last ends with one line break (CRLF counting as one), the last line has
none, `splitLines t ≠ []` always, and joining the lines gives back `t`. -/
def splitLines : List Char → List (List Char)
  | [] => [[]]
  | c :: rest =>
    if c = '\r' ∧ rest.head? = some '\n' then
      match rest with
      | [] => [['\r']]
      | _ :: rest2 => ['\r', '\n'] :: splitLines rest2
    else if isLineBreakChar c then [c] :: splitLines rest
    else
      match splitLines rest with
      | [] => [[c]]
      | l :: ls => (c :: l) :: ls

/-- Ropey's `line_to_char`: absolute char index of the start of line `k`. -/
def lineToChar (ls : List (List Char)) (k : Nat) : Nat :=
  ((ls.take k).map List.length).sum

/-- Ropey's `char_to_line`: the line containing char index `idx`, with the
one-past-the-end index belonging to the last line. -/
def charToLineAux : List (List Char) → Nat → Nat
  | [], _ => 0
  | [_], _ => 0
  | l :: ls, idx => if idx < l.length then 0 else 1 + charToLineAux ls (idx - l.length)

/-- The grapheme clusters of line `k` of a line decomposition. -/
def lineClusters (ls : List (List Char)) (k : Nat) : List (List Char) :=
  seg (ls.getD k [])

/-- Sum of the codepoint counts of a run of clusters. -/
def sizeSum (gs : List (List Char)) : Nat := (gs.map List.length).sum

/-- Line ending style (buffer.rs). -/
inductive LineEnding where
  | Lf
  | Crlf
  | Cr
deriving DecidableEq, Repr

def containsCrlf : List Char → Bool
  | a :: b :: rest => (a == '\r' && b == '\n') || containsCrlf (b :: rest)
  | _ => false

/-- LineEnding::detect (buffer.rs): first-match scan CRLF, LF, CR, with the
non-windows platform default LF. -/
def LineEnding.detect (t : List Char) : LineEnding :=
  if containsCrlf t then .Crlf
  else if t.contains '\n' then .Lf
  else if t.contains '\r' then .Cr
  else .Lf

/-- The maximum number of codepoints a rope chunk may hold in the model.
ropey stores the text in leaves of at most 1024 bytes, so a line longer
than that can never lie inside a single chunk and RopeSlice::as_str
returns None on it.  The model counts codepoints rather than bytes; on
the ASCII inputs used in the concrete theorems the two coincide. -/
def chunkMax : Nat := 1024

/-- Helper for `rechunk` with an explicit structural fuel (the fuel is at
least the text length, so the exhaustion branch is never reached). -/
def rechunkAux : Nat → List Char → List (List Char)
  | _, [] => []
  | 0, t => [t]
  | n + 1, t => t.take chunkMax :: rechunkAux n (t.drop chunkMax)

/-- One valid chunk arrangement of a text: greedy chunks of `chunkMax`
codepoints.  ropey's exact leaf arrangement is an internal detail that the
spec does not fix; the model picks this arrangement, which satisfies the
one property every ropey rope satisfies — no chunk exceeds the maximum
leaf size, so a slice longer than `chunkMax` is never contiguous. -/
def rechunk (t : List Char) : List (List Char) := rechunkAux t.length t

/-- RopeSlice::as_str for the char range [a, b) of a chunked rope: the
slice's content when the range lies inside a single chunk, and None
when it straddles a chunk boundary. -/
def sliceAsStr : List (List Char) → Nat → Nat → Option (List Char)
  | [], a, b => if b ≤ a then some [] else none
  | ch :: rest, a, b =>
    if b ≤ ch.length then some ((ch.drop a).take (b - a))
    else if ch.length ≤ a then sliceAsStr rest (a - ch.length) (b - ch.length)
    else none

/-- The text buffer (buffer.rs).  The rope is modelled by its list of
chunks (leaves); the text is their concatenation.  id and file path play
no part in the claims and are omitted. -/
structure Buffer where
  chunks : List (List Char)
  version : Nat
  dirty : Bool
  readOnly : Bool
  lineEnding : LineEnding
deriving DecidableEq, Repr

/-- Buffer::text (buffer.rs, lines 190-192): the rope's full content. -/
def Buffer.text (b : Buffer) : List Char := b.chunks.flatten

/-- Buffer::from_text (buffer.rs); Version::new is modelled as 0 per the
spec's monotone counter. -/
def Buffer.from_text (t : List Char) : Buffer :=
  { chunks := rechunk t, version := 0, dirty := false, readOnly := false
    lineEnding := LineEnding.detect t }

def Buffer.len_chars (b : Buffer) : Nat := b.text.length

def Buffer.len_lines (b : Buffer) : Nat := (splitLines b.text).length

/-- The conversion Buffer::position_to_char_idx computes when the
addressed line is contiguous in one chunk (line.as_str() returns Some,
buffer.rs line 250): validate the line, segment the full line content
into grapheme clusters, validate the column, and return the line start
plus the codepoint count of the first `column` clusters. -/
def p2cWhole (t : List Char) (pos : Position) : Except EditorError Nat :=
  if pos.line ≥ (splitLines t).length then
    .error (.InvalidPosition pos.line pos.column)
  else
    let ls := splitLines t
    let lineStart := lineToChar ls pos.line
    let graphemes := lineClusters ls pos.line
    if pos.column > graphemes.length then
      .error (.InvalidPosition pos.line pos.column)
    else
      .ok (lineStart + sizeSum (graphemes.take pos.column))

/-- The column loop of Buffer::c2pWhole: walk clusters while
the accumulated codepoint count is below the offset, counting clusters. -/
def columnFor : List (List Char) → Nat → Nat → Nat
  | [], _, _ => 0
  | g :: rest, counted, off =>
    if off ≤ counted then 0 else 1 + columnFor rest (counted + g.length) off

/-- The conversion Buffer::char_idx_to_position computes when the line
holding the index is contiguous in one chunk (line_content.as_str()
returns Some, buffer.rs line 281): validate the index, find its line and
offset within the line, and count the clusters consumed before the
offset is reached. -/
def c2pWhole (t : List Char) (idx : Nat) : Except EditorError Position :=
  if idx > t.length then
    .error (.InvalidPosition 0 idx)
  else
    let ls := splitLines t
    let line := charToLineAux ls idx
    let lineStart := lineToChar ls line
    let off := idx - lineStart
    .ok ⟨line, columnFor (lineClusters ls line) 0 off⟩

/-- The line content Buffer::position_to_char_idx and
Buffer::char_idx_to_position actually segment:
rope.line(k).as_str().unwrap_or("") (buffer.rs lines 250 and 281).
When line k lies inside a single chunk this is the true line content;
when it straddles chunks, as_str() is None and unwrap_or yields the
empty string. -/
def lineAsStr (chunks : List (List Char)) (k : Nat) : List Char :=
  (sliceAsStr chunks (lineToChar (splitLines chunks.flatten) k)
    (lineToChar (splitLines chunks.flatten) k +
      ((splitLines chunks.flatten).getD k []).length)).getD []

/-- Whether rope.line(k) is contiguous in one chunk, i.e. whether
as_str() returns Some on it. -/
def lineContig (chunks : List (List Char)) (k : Nat) : Bool :=
  (sliceAsStr chunks (lineToChar (splitLines chunks.flatten) k)
    (lineToChar (splitLines chunks.flatten) k +
      ((splitLines chunks.flatten).getD k []).length)).isSome

/-- Buffer::position_to_char_idx (buffer.rs, lines 238-265): validate
the line, segment `line.as_str().unwrap_or("")` — the line content when
the line is chunk-contiguous, the EMPTY string when it straddles chunks
(line 250) — into grapheme clusters, validate the column against that
cluster count, and return the line start plus the codepoint count of
the first `column` clusters. -/
def position_to_char_idx (chunks : List (List Char)) (pos : Position) :
    Except EditorError Nat :=
  if pos.line ≥ (splitLines chunks.flatten).length then
    .error (.InvalidPosition pos.line pos.column)
  else if pos.column > (seg (lineAsStr chunks pos.line)).length then
    .error (.InvalidPosition pos.line pos.column)
  else
    .ok (lineToChar (splitLines chunks.flatten) pos.line +
      sizeSum ((seg (lineAsStr chunks pos.line)).take pos.column))

/-- Buffer::char_idx_to_position (buffer.rs, lines 268-294): validate
the index, find its line and offset within the line, and count the
clusters of `line_content.as_str().unwrap_or("")` (line 281; the empty
string on a chunk-straddling line) consumed before the offset is
reached. -/
def char_idx_to_position (chunks : List (List Char)) (idx : Nat) :
    Except EditorError Position :=
  if idx > chunks.flatten.length then
    .error (.InvalidPosition 0 idx)
  else
    .ok ⟨charToLineAux (splitLines chunks.flatten) idx,
      columnFor
        (seg (lineAsStr chunks (charToLineAux (splitLines chunks.flatten) idx))) 0
        (idx - lineToChar (splitLines chunks.flatten)
          (charToLineAux (splitLines chunks.flatten) idx))⟩

def Buffer.position_to_char_idx (b : Buffer) (pos : Position) : Except EditorError Nat :=
  Ed.position_to_char_idx b.chunks pos

def Buffer.char_idx_to_position (b : Buffer) (idx : Nat) : Except EditorError Position :=
  Ed.char_idx_to_position b.chunks idx

/-- Buffer::insert (buffer.rs, lines 297-307): reject read-only buffers,
convert the position, splice the text in, bump the version, set dirty.
The mutated receiver is returned alongside the result. -/
def Buffer.insert (b : Buffer) (pos : Position) (s : List Char) :
    Buffer × Except EditorError Unit :=
  if b.readOnly then (b, .error (.BufferError "Buffer is read-only"))
  else
    match Ed.position_to_char_idx b.chunks pos with
    | .error e => (b, .error e)
    | .ok i =>
      ({ b with
          chunks := rechunk (b.text.take i ++ s ++ b.text.drop i)
          version := b.version + 1
          dirty := true }, .ok ())

/-- Buffer::delete (buffer.rs, lines 310-331): reject read-only buffers,
convert both positions, reject inverted ranges, slice out the removed text,
bump the version, set dirty, and return the removed text. -/
def Buffer.delete (b : Buffer) (start stop : Position) :
    Buffer × Except EditorError (List Char) :=
  if b.readOnly then (b, .error (.BufferError "Buffer is read-only"))
  else
    match Ed.position_to_char_idx b.chunks start with
    | .error e => (b, .error e)
    | .ok i =>
      match Ed.position_to_char_idx b.chunks stop with
      | .error e => (b, .error e)
      | .ok j =>
        if i > j then (b, .error (.InvalidRange "start position is after end position"))
        else
          ({ b with
              chunks := rechunk (b.text.take i ++ b.text.drop j)
              version := b.version + 1
              dirty := true }, .ok ((b.text.drop i).take (j - i)))

/-- Buffer::replace (buffer.rs, lines 334-338): delete the range, then
insert the replacement at `start`, propagating the first error. -/
def Buffer.replace (b : Buffer) (start stop : Position) (s : List Char) :
    Buffer × Except EditorError (List Char) :=
  match b.delete start stop with
  | (b1, .error e) => (b1, .error e)
  | (b1, .ok deleted) =>
    match b1.insert start s with
    | (b2, .error e) => (b2, .error e)
    | (b2, .ok _) => (b2, .ok deleted)

/-- BufferSnapshot (buffer.rs, lines 62-89): an immutable (content, version)
pair. -/
structure BufferSnapshot where
  rope : List Char
  version : Nat
deriving DecidableEq, Repr

def BufferSnapshot.text (s : BufferSnapshot) : List Char := s.rope

def BufferSnapshot.len_lines (s : BufferSnapshot) : Nat := (splitLines s.rope).length

def BufferSnapshot.len_chars (s : BufferSnapshot) : Nat := s.rope.length

def BufferSnapshot.line (s : BufferSnapshot) (i : Nat) : Option (List Char) :=
  if i < s.len_lines then some ((splitLines s.rope).getD i []) else none

/-- Buffer::snapshot (buffer.rs, lines 362-368). -/
def Buffer.snapshot (b : Buffer) : BufferSnapshot :=
  { rope := b.text, version := b.version }

theorem seg_cons_cons (a b : Char) (rest : List Char) :
    seg (a :: b :: rest) =
      match seg (b :: rest) with
      | [] => [[a]]
      | g :: gs => if graphemeBoundary a b then [a] :: g :: gs else (a :: g) :: gs := rfl

theorem seg_ne_nil : ∀ {u : List Char}, u ≠ [] → seg u ≠ []
  | [], h => absurd rfl h
  | [_], _ => by simp [seg]
  | a :: b :: rest, _ => by
    rw [seg_cons_cons]
    cases hseg : seg (b :: rest) with
    | nil => simp
    | cons g gs => by_cases hb : graphemeBoundary a b <;> simp [hb]

theorem seg_flatten : ∀ u : List Char, (seg u).flatten = u
  | [] => rfl
  | [_] => rfl
  | a :: b :: rest => by
    have ih := seg_flatten (b :: rest)
    rw [seg_cons_cons]
    cases hseg : seg (b :: rest) with
    | nil => exact absurd hseg (seg_ne_nil (by simp))
    | cons g gs =>
      rw [hseg] at ih
      dsimp only
      simp only [List.flatten_cons] at ih
      by_cases hb : graphemeBoundary a b
      · rw [if_pos hb]
        simp only [List.flatten_cons, List.singleton_append]
        rw [ih]
      · rw [if_neg hb]
        simp only [List.flatten_cons, List.cons_append]
        rw [ih]

theorem seg_mem_ne_nil : ∀ {u g : List Char}, g ∈ seg u → g ≠ []
  | [], g, h => by simp [seg] at h
  | [c], g, h => by simp [seg] at h; simp [h]
  | a :: b :: rest, g, h => by
    have ih : ∀ {g' : List Char}, g' ∈ seg (b :: rest) → g' ≠ [] :=
      fun h' => seg_mem_ne_nil h'
    rw [seg_cons_cons] at h
    cases hseg : seg (b :: rest) with
    | nil => exact absurd hseg (seg_ne_nil (by simp))
    | cons g0 gs =>
      rw [hseg] at h
      dsimp only at h
      by_cases hb : graphemeBoundary a b
      · rw [if_pos hb] at h
        rcases List.mem_cons.mp h with h | h
        · simp [h]
        · exact ih (by rw [hseg]; exact h)
      · rw [if_neg hb] at h
        rcases List.mem_cons.mp h with h | h
        · have hg0 : g0 ≠ [] := ih (by rw [hseg]; exact List.mem_cons_self g0 gs)
          simp [h]
        · exact ih (by rw [hseg]; exact List.mem_cons_of_mem g0 h)

theorem seg_head? : ∀ {u g : List Char} {gs : List (List Char)},
    seg u = g :: gs → g.head? = u.head?
  | [], g, gs, h => by simp [seg] at h
  | [c], g, gs, h => by simp [seg] at h; simp [h.1]
  | a :: b :: rest, g, gs, h => by
    rw [seg_cons_cons] at h
    cases hseg : seg (b :: rest) with
    | nil => exact absurd hseg (seg_ne_nil (by simp))
    | cons g0 gs0 =>
      rw [hseg] at h
      dsimp only at h
      by_cases hb : graphemeBoundary a b
      · rw [if_pos hb] at h
        injection h with h1 _
        simp [← h1]
      · rw [if_neg hb] at h
        injection h with h1 _
        simp [← h1]

theorem seg_cons_boundary {x z : Char} {zs : List Char}
    (hb : graphemeBoundary x z = true) :
    seg (x :: z :: zs) = [x] :: seg (z :: zs) := by
  rw [seg_cons_cons]
  cases hseg : seg (z :: zs) with
  | nil => exact absurd hseg (seg_ne_nil (by simp))
  | cons g gs => dsimp only; rw [if_pos hb]

theorem seg_cons_noboundary {x z : Char} {zs : List Char}
    (hb : ¬ graphemeBoundary x z = true) {g : List Char} {gs : List (List Char)}
    (hseg : seg (z :: zs) = g :: gs) :
    seg (x :: z :: zs) = (x :: g) :: gs := by
  rw [seg_cons_cons, hseg]
  dsimp only
  rw [if_neg hb]

theorem seg_first_cluster :
    ∀ {u g : List Char} {gs : List (List Char)}, seg u = g :: gs →
      u = g ++ gs.flatten ∧ seg gs.flatten = gs ∧ seg g = [g] ∧
      (∀ x y, g.getLast? = some x → gs.flatten.head? = some y →
        graphemeBoundary x y = true)
  | [], g, gs, h => by simp [seg] at h
  | [c], g, gs, h => by
    simp [seg] at h
    obtain ⟨h1, h2⟩ := h
    subst h1; subst h2
    exact ⟨by simp, by simp [seg], by simp [seg], by intro x y _ hy; simp at hy⟩
  | a :: b :: rest, g, gs, h => by
    cases hseg : seg (b :: rest) with
    | nil => exact absurd hseg (seg_ne_nil (by simp))
    | cons g0 gs0 =>
      obtain ⟨ih1, ih2, ih3, ih4⟩ := seg_first_cluster hseg
      have hflat : (g0 :: gs0).flatten = b :: rest := by
        have hsf := seg_flatten (b :: rest); rw [hseg] at hsf; exact hsf
      by_cases hb : graphemeBoundary a b
      · rw [seg_cons_boundary hb, hseg] at h
        injection h with h1 h2
        subst h1; subst h2
        refine ⟨by simp [hflat], by rw [hflat]; exact hseg, by simp [seg], ?_⟩
        intro x y hx hy
        simp at hx
        rw [hflat] at hy; simp at hy
        subst hx; subst hy
        exact hb
      · rw [seg_cons_noboundary hb hseg] at h
        injection h with h1 h2
        subst h2
        have hg0ne : g0 ≠ [] :=
          seg_mem_ne_nil (show g0 ∈ seg (b :: rest) by rw [hseg]; exact List.mem_cons_self _ _)
        have hhead : g0.head? = some b := by
          have hh := seg_head? hseg; simpa using hh
        obtain ⟨g0h, g0t, rfl⟩ : ∃ h t, g0 = h :: t := by
          cases g0 with
          | nil => exact absurd rfl hg0ne
          | cons h t => exact ⟨h, t, rfl⟩
        have hg0h : g0h = b := by simp at hhead; exact hhead
        subst hg0h
        subst h1
        refine ⟨?_, ih2, ?_, ?_⟩
        · have hrest : rest = g0t ++ gs0.flatten := by
            have h' := ih1
            simp only [List.cons_append] at h'
            exact ((List.cons.injEq _ _ _ _).mp h').2
          simp [hrest]
        · exact seg_cons_noboundary hb ih3
        · intro x y hx hy
          apply ih4 x y ?_ hy
          rw [List.getLast?_cons_cons] at hx
          exact hx

theorem seg_append : ∀ {X : List Char} (Y : List Char), X ≠ [] → Y ≠ [] →
    (∀ x y, X.getLast? = some x → Y.head? = some y → graphemeBoundary x y = true) →
    seg (X ++ Y) = seg X ++ seg Y
  | [], _, hX, _, _ => absurd rfl hX
  | [x], Y, _, hY, hbd => by
    cases Y with
    | nil => exact absurd rfl hY
    | cons y Y' =>
      have hb : graphemeBoundary x y = true := hbd x y (by simp) (by simp)
      simp only [List.singleton_append]
      rw [seg_cons_boundary hb]
      simp [seg]
  | x :: x2 :: xs, Y, _, hY, hbd => by
    have hlast : (x :: x2 :: xs).getLast? = (x2 :: xs).getLast? :=
      List.getLast?_cons_cons
    have ih := @seg_append (x2 :: xs) Y (by simp) hY
      (fun a b ha hb => hbd a b (by rw [hlast]; exact ha) hb)
    cases hseg : seg (x2 :: xs) with
    | nil => exact absurd hseg (seg_ne_nil (by simp))
    | cons g0 gs0 =>
      have happ : (x :: x2 :: xs) ++ Y = x :: x2 :: (xs ++ Y) := by simp
      rw [happ]
      by_cases hb : graphemeBoundary x x2
      · rw [seg_cons_boundary hb]
        rw [show x2 :: (xs ++ Y) = (x2 :: xs) ++ Y by simp, ih]
        rw [seg_cons_boundary hb]
        simp
      · have hseg2 : seg (x2 :: (xs ++ Y)) = g0 :: (gs0 ++ seg Y) := by
          rw [show x2 :: (xs ++ Y) = (x2 :: xs) ++ Y by simp, ih, hseg]
          simp
        rw [seg_cons_noboundary hb hseg2, seg_cons_noboundary hb hseg]
        simp

theorem seg_take_flatten : ∀ (c : Nat) (u : List Char),
    seg (((seg u).take c).flatten) = (seg u).take c
  | 0, u => by simp [seg]
  | c + 1, u => by
    cases hseg : seg u with
    | nil => simp [seg]
    | cons g gs =>
      obtain ⟨hu, hgs, hg, hbd⟩ := seg_first_cluster hseg
      have ih := seg_take_flatten c gs.flatten
      rw [hgs] at ih
      simp only [List.take_succ_cons, List.flatten_cons]
      have hne_g : g ≠ [] :=
        seg_mem_ne_nil (by rw [hseg]; exact List.mem_cons_self _ _)
      by_cases hflat : ((gs.take c).flatten) = []
      · have htk : gs.take c = [] := by
          rw [List.flatten_eq_nil_iff] at hflat
          cases htc : gs.take c with
          | nil => rfl
          | cons e es =>
            have he : e ∈ gs := List.mem_of_mem_take (by rw [htc]; exact List.mem_cons_self _ _)
            have : e ≠ [] := seg_mem_ne_nil (by rw [hgs]; exact he)
            exact absurd (hflat e (by rw [htc]; exact List.mem_cons_self _ _)) this
        rw [htk] at ih ⊢
        simp [hg]
      · rw [seg_append ((gs.take c).flatten) hne_g hflat ?_, hg, ih]
        · simp
        · intro x y hx hy
          apply hbd x y hx
          have hsplit : gs.flatten = (gs.take c).flatten ++ (gs.drop c).flatten := by
            rw [← List.flatten_append, List.take_append_drop]
          rw [hsplit, List.head?_append, hy]
          rfl

theorem splitLines_crlf {c : Char} {rest : List Char}
    (h : c = '\r' ∧ rest.head? = some '\n') :
    splitLines (c :: rest) = ['\r', '\n'] :: splitLines rest.tail := by
  cases rest with
  | nil => simp at h
  | cons d rest2 =>
    rw [splitLines.eq_def]
    dsimp only
    rw [if_pos h]
    rfl

theorem splitLines_break {c : Char} {rest : List Char}
    (h1 : ¬(c = '\r' ∧ rest.head? = some '\n')) (h2 : isLineBreakChar c = true) :
    splitLines (c :: rest) = [c] :: splitLines rest := by
  rw [splitLines.eq_def]
  dsimp only
  rw [if_neg h1, if_pos h2]

theorem splitLines_other {c : Char} {rest : List Char}
    (h1 : ¬(c = '\r' ∧ rest.head? = some '\n')) (h2 : ¬isLineBreakChar c = true) :
    splitLines (c :: rest) =
      match splitLines rest with
      | [] => [[c]]
      | l :: ls => (c :: l) :: ls := by
  rw [splitLines.eq_def]
  dsimp only
  rw [if_neg h1, if_neg h2]

theorem splitLines_ne_nil (u : List Char) : splitLines u ≠ [] := by
  induction u using splitLines.induct with
  | case1 => simp [splitLines]
  | case2 c h => simp at h
  | case3 c d rest2 h ih => rw [splitLines_crlf h]; simp
  | case4 c rest h1 h2 ih => rw [splitLines_break h1 h2]; simp
  | case5 c rest h1 h2 hnil ih => exact absurd hnil ih
  | case6 c rest h1 h2 l ls hcons ih => rw [splitLines_other h1 h2, hcons]; simp

theorem splitLines_flatten (u : List Char) : (splitLines u).flatten = u := by
  induction u using splitLines.induct with
  | case1 => simp [splitLines]
  | case2 c h => simp at h
  | case3 c d rest2 h ih =>
    rw [splitLines_crlf h]
    obtain ⟨hc, hh⟩ := h
    subst hc
    simp at hh
    subst hh
    simp only [List.tail_cons]
    simp [List.flatten_cons, ih]
  | case4 c rest h1 h2 ih =>
    rw [splitLines_break h1 h2]
    simp [List.flatten_cons, ih]
  | case5 c rest h1 h2 hnil ih => exact absurd hnil (splitLines_ne_nil rest)
  | case6 c rest h1 h2 g gs hcons ih =>
    rw [splitLines_other h1 h2, hcons]
    rw [hcons] at ih
    simp only [List.flatten_cons] at ih ⊢
    simp [ih]

theorem splitLines_sum (u : List Char) :
    ((splitLines u).map List.length).sum = u.length := by
  rw [← List.length_flatten, splitLines_flatten]

/-- A piece of text containing no line-break character. -/
def breakFree (u : List Char) : Prop := ∀ c ∈ u, isLineBreakChar c = false

theorem breakFree_splitLines {u : List Char} (h : breakFree u) :
    splitLines u = [u] := by
  induction u using splitLines.induct with
  | case1 => simp [splitLines]
  | case2 c hc => simp at hc
  | case3 c d rest2 hc ih =>
    have := h c (List.mem_cons_self _ _)
    rw [hc.1] at this
    simp [isLineBreakChar] at this
  | case4 c rest h1 h2 ih =>
    have := h c (List.mem_cons_self _ _)
    rw [h2] at this
    simp at this
  | case5 c rest h1 h2 hnil ih => exact absurd hnil (splitLines_ne_nil rest)
  | case6 c rest h1 h2 g gs hcons ih =>
    rw [splitLines_other h1 h2, hcons]
    have hrest : breakFree rest := fun d hd => h d (List.mem_cons_of_mem _ hd)
    rw [ih hrest] at hcons
    injection hcons with hg hgs
    subst hg; subst hgs
    rfl

theorem splitLines_singleton {u L : List Char} (h : splitLines u = [L]) :
    u = L ∧ breakFree L := by
  induction u using splitLines.induct generalizing L with
  | case1 =>
    simp [splitLines] at h
    subst h
    exact ⟨rfl, by intro c hc; simp at hc⟩
  | case2 c hc => simp at hc
  | case3 c d rest2 hc ih =>
    rw [splitLines_crlf hc] at h
    injection h with h1 h2
    exact absurd h2 (splitLines_ne_nil _)
  | case4 c rest h1 h2 ih =>
    rw [splitLines_break h1 h2] at h
    injection h with h1 h2
    exact absurd h2 (splitLines_ne_nil _)
  | case5 c rest h1 h2 hnil ih => exact absurd hnil (splitLines_ne_nil rest)
  | case6 c rest h1 h2 g gs hcons ih =>
    rw [splitLines_other h1 h2, hcons] at h
    injection h with hL hgs
    subst hgs
    obtain ⟨hrg, hbf⟩ := ih hcons
    subst hrg
    refine ⟨by rw [← hL], ?_⟩
    rw [← hL]
    intro d hd
    rcases List.mem_cons.mp hd with hd | hd
    · subst hd
      exact Bool.eq_false_iff.mpr h2
    · exact hbf d hd

theorem splitLines_peel {u L : List Char} {rest : List (List Char)}
    (h : splitLines u = L :: rest) (hrest : rest ≠ []) :
    ∃ A v, breakFree A ∧ u = L ++ v ∧ splitLines v = rest ∧
      ((L = A ++ ['\r', '\n']) ∨
       (∃ b, isLineBreakChar b = true ∧ L = A ++ [b] ∧
         (b = '\r' → v.head? ≠ some '\n'))) := by
  induction u using splitLines.induct generalizing L rest with
  | case1 =>
    simp [splitLines] at h
    exact absurd h.2 hrest
  | case2 c hc => simp at hc
  | case3 c d rest2 hc ih =>
    rw [splitLines_crlf hc] at h
    injection h with hL hr
    obtain ⟨hc1, hc2⟩ := hc
    subst hc1
    simp at hc2
    subst hc2
    simp only [List.tail_cons] at hr
    refine ⟨[], rest2, by intro x hx; simp at hx, ?_, hr, Or.inl (by rw [← hL]; rfl)⟩
    rw [← hL]; rfl
  | case4 c rest0 h1 h2 ih =>
    rw [splitLines_break h1 h2] at h
    injection h with hL hr
    refine ⟨[], rest0, by intro x hx; simp at hx, by rw [← hL]; rfl, hr, ?_⟩
    refine Or.inr ⟨c, h2, by rw [← hL]; rfl, ?_⟩
    intro hcr
    subst hcr
    intro hhd
    exact h1 ⟨rfl, hhd⟩
  | case5 c rest0 h1 h2 hnil ih => exact absurd hnil (splitLines_ne_nil rest0)
  | case6 c rest0 h1 h2 g gs hcons ih =>
    rw [splitLines_other h1 h2, hcons] at h
    injection h with hL hgs
    subst hgs
    obtain ⟨A, v, hA, hu, hv, hshape⟩ := ih hcons hrest
    refine ⟨c :: A, v, ?_, ?_, hv, ?_⟩
    · intro d hd
      rcases List.mem_cons.mp hd with hd | hd
      · subst hd; exact Bool.eq_false_iff.mpr h2
      · exact hA d hd
    · rw [← hL, hu]; rfl
    · rcases hshape with hs | ⟨b, hb, hgb, hbr⟩
      · exact Or.inl (by rw [← hL, hs]; rfl)
      · exact Or.inr ⟨b, hb, by rw [← hL, hgb]; rfl, hbr⟩

theorem splitLines_cons_line : ∀ (A : List Char) {b : Char} (X : List Char),
    breakFree A → isLineBreakChar b = true → (b = '\r' → X.head? ≠ some '\n') →
    splitLines (A ++ [b] ++ X) = (A ++ [b]) :: splitLines X
  | [], b, X, _, hb, hcr => by
    have h1 : ¬(b = '\r' ∧ X.head? = some '\n') := by
      rintro ⟨hb1, hb2⟩
      exact hcr hb1 hb2
    simpa using splitLines_break h1 hb
  | a :: A, b, X, hA, hb, hcr => by
    have ih := splitLines_cons_line A X
      (fun c hc => hA c (List.mem_cons_of_mem _ hc)) hb hcr
    have ha : isLineBreakChar a = false := hA a (List.mem_cons_self _ _)
    have hane : a ≠ '\r' := by
      intro hr
      rw [hr] at ha
      simp [isLineBreakChar] at ha
    have h1 : ¬(a = '\r' ∧ (A ++ [b] ++ X).head? = some '\n') := by
      rintro ⟨hr, _⟩
      exact hane hr
    have h2 : ¬isLineBreakChar a = true := by rw [ha]; simp
    have hmain : a :: A ++ [b] ++ X = a :: (A ++ [b] ++ X) := by simp
    rw [hmain, splitLines_other h1 h2, ih]
    rfl

theorem splitLines_cons_crlf : ∀ (A : List Char) (X : List Char),
    breakFree A →
    splitLines (A ++ ['\r', '\n'] ++ X) = (A ++ ['\r', '\n']) :: splitLines X
  | [], X, _ => by
    have h : ('\r' : Char) = '\r' ∧ ('\n' :: X).head? = some '\n' := ⟨rfl, rfl⟩
    simpa using splitLines_crlf h
  | a :: A, X, hA => by
    have ih := splitLines_cons_crlf A X (fun c hc => hA c (List.mem_cons_of_mem _ hc))
    have ha : isLineBreakChar a = false := hA a (List.mem_cons_self _ _)
    have hane : a ≠ '\r' := by
      intro hr
      rw [hr] at ha
      simp [isLineBreakChar] at ha
    have h1 : ¬(a = '\r' ∧ (A ++ ['\r', '\n'] ++ X).head? = some '\n') := by
      rintro ⟨hr, _⟩
      exact hane hr
    have h2 : ¬isLineBreakChar a = true := by rw [ha]; simp
    have hmain : a :: A ++ ['\r', '\n'] ++ X = a :: (A ++ ['\r', '\n'] ++ X) := by simp
    rw [hmain, splitLines_other h1 h2, ih]
    rfl

theorem splitLines_crlf_merge (A : List Char) (X : List Char) (hA : breakFree A) :
    splitLines (A ++ ['\r'] ++ '\n' :: X) = (A ++ ['\r', '\n']) :: splitLines X := by
  have hre : A ++ ['\r'] ++ '\n' :: X = A ++ ['\r', '\n'] ++ X := by simp
  rw [hre]
  exact splitLines_cons_crlf A X hA

theorem sizeSum_nil : sizeSum [] = 0 := rfl

theorem sizeSum_cons (g : List Char) (gs : List (List Char)) :
    sizeSum (g :: gs) = g.length + sizeSum gs := by
  simp [sizeSum]

theorem sizeSum_append (a b : List (List Char)) :
    sizeSum (a ++ b) = sizeSum a + sizeSum b := by
  simp [sizeSum]

theorem sizeSum_seg (u : List Char) : sizeSum (seg u) = u.length := by
  rw [sizeSum, ← List.length_flatten, seg_flatten]

theorem sizeSum_take_le (gs : List (List Char)) (c : Nat) :
    sizeSum (gs.take c) ≤ sizeSum gs := by
  conv_rhs => rw [← List.take_append_drop c gs]
  rw [sizeSum_append]
  omega

theorem getD_drop : ∀ (ls : List (List Char)) (k : Nat),
    ls.getD k [] = (ls.drop k).headD []
  | [], k => by cases k <;> simp
  | l :: ls, 0 => by simp
  | l :: ls, k + 1 => by simp [getD_drop ls k]

theorem sizeSum_take_lt {gs : List (List Char)} {c : Nat} (hc : c < gs.length)
    (hne : ∀ g ∈ gs, g ≠ []) : sizeSum (gs.take c) < sizeSum gs := by
  cases hd : gs.drop c with
  | nil =>
    rw [List.drop_eq_nil_iff] at hd
    omega
  | cons g rest =>
    have hmem : g ∈ gs := List.mem_of_mem_drop (by rw [hd]; exact List.mem_cons_self _ _)
    have hg : 0 < g.length := List.length_pos.mpr (hne g hmem)
    have hsplit : sizeSum gs = sizeSum (gs.take c) + sizeSum (gs.drop c) := by
      conv_lhs => rw [← List.take_append_drop c gs]
      exact sizeSum_append _ _
    rw [hd, sizeSum_cons] at hsplit
    omega

theorem lineToChar_zero (ls : List (List Char)) : lineToChar ls 0 = 0 := by
  simp [lineToChar]

theorem lineToChar_cons (l : List Char) (ls : List (List Char)) (k : Nat) :
    lineToChar (l :: ls) (k + 1) = l.length + lineToChar ls k := by
  simp [lineToChar, List.take_succ_cons]

theorem charToLineAux_lt : ∀ {ls : List (List Char)}, ls ≠ [] → ∀ (i : Nat),
    charToLineAux ls i < ls.length
  | [], h, _ => absurd rfl h
  | [l], _, i => by simp [charToLineAux]
  | l :: l2 :: rest, _, i => by
    by_cases hi : i < l.length
    · simp [charToLineAux, hi]
    · have ih := @charToLineAux_lt (l2 :: rest) (by simp) (i - l.length)
      simp only [charToLineAux, if_neg hi]
      simp only [List.length_cons] at ih ⊢
      omega

theorem charToLineAux_start_le : ∀ (ls : List (List Char)) (i : Nat),
    lineToChar ls (charToLineAux ls i) ≤ i
  | [], i => by simp [charToLineAux, lineToChar]
  | [l], i => by simp [charToLineAux, lineToChar]
  | l :: l2 :: rest, i => by
    by_cases hi : i < l.length
    · simp [charToLineAux, hi, lineToChar]
    · have ih := charToLineAux_start_le (l2 :: rest) (i - l.length)
      simp only [charToLineAux, if_neg hi]
      rw [show 1 + charToLineAux (l2 :: rest) (i - l.length) =
            charToLineAux (l2 :: rest) (i - l.length) + 1 by omega]
      rw [lineToChar_cons]
      omega

theorem charToLineAux_spec : ∀ (ls : List (List Char)) (k i : Nat),
    k < ls.length → lineToChar ls k ≤ i →
    (i < lineToChar ls k + (ls.getD k []).length ∨ k + 1 = ls.length) →
    charToLineAux ls i = k
  | [], k, i, hk, _, _ => by simp at hk
  | [l], k, i, hk, _, _ => by
    simp at hk
    simp [charToLineAux, hk]
  | l :: l2 :: rest, k, i, hk, hle, hbound => by
    cases k with
    | zero =>
      have hi : i < l.length := by
        rcases hbound with hb | hb
        · simpa [lineToChar] using hb
        · simp at hb
      simp [charToLineAux, hi]
    | succ k' =>
      have hlc : lineToChar (l :: l2 :: rest) (k' + 1) =
          l.length + lineToChar (l2 :: rest) k' := lineToChar_cons _ _ _
      have hige : l.length ≤ i := by omega
      have hni : ¬ i < l.length := by omega
      have hgd : (l :: l2 :: rest).getD (k' + 1) [] = (l2 :: rest).getD k' [] := by
        simp
      have ih := charToLineAux_spec (l2 :: rest) k' (i - l.length)
        (by simpa using hk) (by omega)
        (by
          rcases hbound with hb | hb
          · left
            rw [hlc, hgd] at hb
            omega
          · right
            simp at hb ⊢
            omega)
      simp only [charToLineAux, if_neg hni]
      omega

theorem columnFor_le : ∀ (gs : List (List Char)) (counted off : Nat),
    columnFor gs counted off ≤ gs.length
  | [], _, _ => Nat.le_refl 0
  | g :: rest, counted, off => by
    by_cases h : off ≤ counted
    · simp [columnFor, h]
    · have ih := columnFor_le rest (counted + g.length) off
      simp only [columnFor, if_neg h, List.length_cons]
      omega

theorem columnFor_boundary : ∀ (gs : List (List Char)) (c counted : Nat),
    c ≤ gs.length → (∀ g ∈ gs, g ≠ []) →
    columnFor gs counted (counted + sizeSum (gs.take c)) = c
  | gs, 0, counted, _, _ => by
    cases gs <;> simp [columnFor, sizeSum]
  | [], c + 1, counted, hc, _ => by simp at hc
  | g :: rest, c + 1, counted, hc, hne => by
    have hg : g ≠ [] := hne g (List.mem_cons_self _ _)
    have hglen : 0 < g.length := List.length_pos.mpr hg
    have htake : sizeSum ((g :: rest).take (c + 1)) = g.length + sizeSum (rest.take c) := by
      rw [List.take_succ_cons, sizeSum_cons]
    have hoff : ¬(counted + sizeSum ((g :: rest).take (c + 1)) ≤ counted) := by
      rw [htake]
      omega
    simp only [columnFor, if_neg hoff]
    have ih := columnFor_boundary rest c (counted + g.length)
      (by simpa using hc) (fun g' h' => hne g' (List.mem_cons_of_mem _ h'))
    rw [show counted + sizeSum ((g :: rest).take (c + 1)) =
          counted + g.length + sizeSum (rest.take c) by rw [htake]; omega]
    rw [ih]
    omega

theorem lineToChar_add_getD_le {ls : List (List Char)} {k : Nat}
    (hk : k < ls.length) :
    lineToChar ls k + (ls.getD k []).length ≤ (ls.map List.length).sum := by
  cases hd : ls.drop k with
  | nil =>
    rw [List.drop_eq_nil_iff] at hd
    omega
  | cons g rest =>
    have hgd : ls.getD k [] = g := by rw [getD_drop, hd]; rfl
    have hsplit : (ls.map List.length).sum =
        lineToChar ls k + ((ls.drop k).map List.length).sum := by
      conv_lhs => rw [← List.take_append_drop k ls]
      simp [lineToChar, List.sum_append]
    rw [hsplit, hd, hgd]
    simp

theorem rechunkAux_flatten : ∀ (n : Nat) (t : List Char), t.length ≤ n →
    (rechunkAux n t).flatten = t := by
  intro n
  induction n with
  | zero =>
    intro t ht
    cases t with
    | nil => rfl
    | cons c ts => simp at ht
  | succ n ih =>
    intro t ht
    cases t with
    | nil => rfl
    | cons c ts =>
      show (List.take chunkMax (c :: ts) ::
        rechunkAux n (List.drop chunkMax (c :: ts))).flatten = c :: ts
      rw [List.flatten_cons]
      rw [ih (List.drop chunkMax (c :: ts))
        (by
          have hc : chunkMax = 1024 := rfl
          simp only [List.length_drop, List.length_cons, hc] at ht ⊢
          omega)]
      exact List.take_append_drop chunkMax (c :: ts)

theorem rechunk_flatten (t : List Char) : (rechunk t).flatten = t :=
  rechunkAux_flatten t.length t (Nat.le_refl _)

theorem from_text_text (t : List Char) : (Buffer.from_text t).text = t :=
  rechunk_flatten t

theorem sliceAsStr_some : ∀ (cs : List (List Char)) (a b : Nat) (s : List Char),
    a ≤ b → sliceAsStr cs a b = some s →
    s = (cs.flatten.drop a).take (b - a) := by
  intro cs
  induction cs with
  | nil =>
    intro a b s hab h
    simp only [sliceAsStr] at h
    by_cases hba : b ≤ a
    · rw [if_pos hba] at h
      injection h with h
      rw [← h]
      simp
    · rw [if_neg hba] at h
      exact absurd h (by simp)
  | cons ch rest ih =>
    intro a b s hab h
    simp only [sliceAsStr] at h
    by_cases h1 : b ≤ ch.length
    · rw [if_pos h1] at h
      injection h with h
      rw [← h, List.flatten_cons, List.drop_append_eq_append_drop,
        List.take_append_eq_append_take]
      have h0 : b - a - (List.drop a ch).length = 0 := by
        rw [List.length_drop]
        omega
      rw [h0]
      simp
    · rw [if_neg h1] at h
      by_cases h2 : ch.length ≤ a
      · rw [if_pos h2] at h
        have hs := ih (a - ch.length) (b - ch.length) s (by omega) h
        rw [hs, List.flatten_cons, List.drop_append_eq_append_drop,
          List.drop_eq_nil_of_le h2, List.nil_append]
        congr 1
        omega
      · rw [if_neg h2] at h
        exact absurd h (by simp)

theorem flatten_drop_take_getD : ∀ (ls : List (List Char)) (k : Nat),
    (ls.flatten.drop (lineToChar ls k)).take ((ls.getD k []).length) =
      ls.getD k [] := by
  intro ls
  induction ls with
  | nil =>
    intro k
    simp
  | cons l rest ih =>
    intro k
    cases k with
    | zero =>
      rw [lineToChar_zero]
      simp only [List.drop_zero, List.flatten_cons, List.getD_cons_zero]
      exact List.take_left l rest.flatten
    | succ k =>
      rw [lineToChar_cons]
      simp only [List.flatten_cons, List.getD_cons_succ]
      rw [List.drop_append_eq_append_drop,
        List.drop_eq_nil_of_le (show l.length ≤ l.length + lineToChar rest k by omega),
        List.nil_append]
      have h2 : l.length + lineToChar rest k - l.length = lineToChar rest k := by
        omega
      rw [h2]
      exact ih k

theorem lineAsStr_of_contig {chunks : List (List Char)} {k : Nat}
    (h : lineContig chunks k = true) :
    lineAsStr chunks k = (splitLines chunks.flatten).getD k [] := by
  unfold lineContig at h
  unfold lineAsStr
  cases hs : sliceAsStr chunks (lineToChar (splitLines chunks.flatten) k)
      (lineToChar (splitLines chunks.flatten) k +
        ((splitLines chunks.flatten).getD k []).length) with
  | none =>
    rw [hs] at h
    simp at h
  | some s =>
    have hsome := sliceAsStr_some chunks _ _ s (by omega) hs
    simp only [Option.getD_some]
    rw [hsome]
    have hba : lineToChar (splitLines chunks.flatten) k +
        ((splitLines chunks.flatten).getD k []).length -
        lineToChar (splitLines chunks.flatten) k =
        ((splitLines chunks.flatten).getD k []).length := by omega
    rw [hba]
    have hmain := flatten_drop_take_getD (splitLines chunks.flatten) k
    rw [splitLines_flatten] at hmain
    exact hmain

theorem lineAsStr_of_noncontig {chunks : List (List Char)} {k : Nat}
    (h : lineContig chunks k = false) :
    lineAsStr chunks k = [] := by
  unfold lineContig at h
  unfold lineAsStr
  cases hs : sliceAsStr chunks (lineToChar (splitLines chunks.flatten) k)
      (lineToChar (splitLines chunks.flatten) k +
        ((splitLines chunks.flatten).getD k []).length) with
  | none => rfl
  | some s =>
    rw [hs] at h
    simp at h

theorem p2c_contig {chunks : List (List Char)} (pos : Position)
    (h : lineContig chunks pos.line = true) :
    position_to_char_idx chunks pos = p2cWhole chunks.flatten pos := by
  unfold position_to_char_idx p2cWhole
  rw [lineAsStr_of_contig h]
  rfl

theorem c2p_contig {chunks : List (List Char)} (idx : Nat)
    (h : lineContig chunks (charToLineAux (splitLines chunks.flatten) idx) = true) :
    char_idx_to_position chunks idx = c2pWhole chunks.flatten idx := by
  unfold char_idx_to_position c2pWhole
  rw [lineAsStr_of_contig h]
  rfl

theorem columnFor_zero : ∀ (gs : List (List Char)) (c : Nat),
    columnFor gs c c = 0 := by
  intro gs c
  cases gs with
  | nil => rfl
  | cons g rest => simp [columnFor]

theorem p2c_ok_iff {t : List Char} {pos : Position} {i : Nat} :
    p2cWhole t pos = .ok i ↔
      pos.line < (splitLines t).length ∧
      pos.column ≤ (lineClusters (splitLines t) pos.line).length ∧
      i = lineToChar (splitLines t) pos.line +
          sizeSum ((lineClusters (splitLines t) pos.line).take pos.column) := by
  unfold p2cWhole
  by_cases h1 : pos.line ≥ (splitLines t).length
  · simp only [h1, if_true]
    constructor
    · intro h
      exact absurd h (by simp)
    · intro h
      omega
  · simp only [h1, if_false]
    by_cases h2 : pos.column > (lineClusters (splitLines t) pos.line).length
    · simp only [h2, if_true]
      constructor
      · intro h
        exact absurd h (by simp)
      · intro h
        omega
    · simp only [h2, if_false]
      constructor
      · intro h
        injection h with h
        exact ⟨by omega, by omega, h.symm⟩
      · intro h
        rw [h.2.2]

theorem c2p_ok_iff {t : List Char} {idx : Nat} {p : Position} :
    c2pWhole t idx = .ok p ↔
      idx ≤ t.length ∧
      p = ⟨charToLineAux (splitLines t) idx,
           columnFor (lineClusters (splitLines t) (charToLineAux (splitLines t) idx)) 0
             (idx - lineToChar (splitLines t) (charToLineAux (splitLines t) idx))⟩ := by
  unfold c2pWhole
  by_cases h1 : idx > t.length
  · simp only [h1, if_true]
    constructor
    · intro h
      exact absurd h (by simp)
    · intro h
      omega
  · simp only [h1, if_false]
    constructor
    · intro h
      injection h with h
      exact ⟨by omega, h.symm⟩
    · intro h
      rw [h.2]

theorem p2c_ok_le {t : List Char} {pos : Position} {i : Nat}
    (h : p2cWhole t pos = .ok i) : i ≤ t.length := by
  obtain ⟨hk, hc, hi⟩ := p2c_ok_iff.mp h
  have h1 : sizeSum ((lineClusters (splitLines t) pos.line).take pos.column) ≤
      ((splitLines t).getD pos.line []).length := by
    calc sizeSum ((lineClusters (splitLines t) pos.line).take pos.column)
        ≤ sizeSum (lineClusters (splitLines t) pos.line) := sizeSum_take_le _ _
      _ = ((splitLines t).getD pos.line []).length := sizeSum_seg _
  have h2 := lineToChar_add_getD_le hk
  rw [splitLines_sum] at h2
  omega

theorem p2cC_ok_iff {chunks : List (List Char)} {pos : Position} {i : Nat} :
    position_to_char_idx chunks pos = .ok i ↔
      pos.line < (splitLines chunks.flatten).length ∧
      pos.column ≤ (seg (lineAsStr chunks pos.line)).length ∧
      i = lineToChar (splitLines chunks.flatten) pos.line +
          sizeSum ((seg (lineAsStr chunks pos.line)).take pos.column) := by
  unfold position_to_char_idx
  by_cases h1 : pos.line ≥ (splitLines chunks.flatten).length
  · simp only [h1, if_true]
    constructor
    · intro h
      exact absurd h (by simp)
    · intro h
      omega
  · simp only [h1, if_false]
    by_cases h2 : pos.column > (seg (lineAsStr chunks pos.line)).length
    · simp only [h2, if_true]
      constructor
      · intro h
        exact absurd h (by simp)
      · intro h
        omega
    · simp only [h2, if_false]
      constructor
      · intro h
        injection h with h
        exact ⟨by omega, by omega, h.symm⟩
      · intro h
        rw [h.2.2]

theorem c2pC_ok_iff {chunks : List (List Char)} {idx : Nat} {p : Position} :
    char_idx_to_position chunks idx = .ok p ↔
      idx ≤ chunks.flatten.length ∧
      p = ⟨charToLineAux (splitLines chunks.flatten) idx,
           columnFor
             (seg (lineAsStr chunks (charToLineAux (splitLines chunks.flatten) idx))) 0
             (idx - lineToChar (splitLines chunks.flatten)
               (charToLineAux (splitLines chunks.flatten) idx))⟩ := by
  unfold char_idx_to_position
  by_cases h1 : idx > chunks.flatten.length
  · simp only [h1, if_true]
    constructor
    · intro h
      exact absurd h (by simp)
    · intro h
      omega
  · simp only [h1, if_false]
    constructor
    · intro h
      injection h with h
      exact ⟨by omega, h.symm⟩
    · intro h
      rw [h.2]

theorem c1_whole {t : List Char} {pos : Position} {i : Nat}
    (hok : p2cWhole t pos = .ok i)
    (hside : pos.column < (lineClusters (splitLines t) pos.line).length ∨
             pos.line + 1 = (splitLines t).length) :
    c2pWhole t i = .ok pos ∧ charToLineAux (splitLines t) i = pos.line := by
  obtain ⟨hk, hc, hi⟩ := p2c_ok_iff.mp hok
  set ls := splitLines t with hls
  set gs := lineClusters ls pos.line with hgs
  have hne : ∀ g ∈ gs, g ≠ [] := fun g hg => seg_mem_ne_nil hg
  have hstart_le : lineToChar ls pos.line ≤ i := by omega
  have hline : charToLineAux ls i = pos.line := by
    apply charToLineAux_spec ls pos.line i hk hstart_le
    rcases hside with hs | hs
    · left
      have hlt : sizeSum (gs.take pos.column) < sizeSum gs := sizeSum_take_lt hs hne
      have hlen : sizeSum gs = ((splitLines t).getD pos.line []).length := by
        rw [hgs, lineClusters]
        exact sizeSum_seg _
      rw [← hls] at hlen
      omega
    · right
      exact hs
  have hcol : columnFor gs 0 (i - lineToChar ls pos.line) = pos.column := by
    have : i - lineToChar ls pos.line = 0 + sizeSum (gs.take pos.column) := by omega
    rw [this]
    exact columnFor_boundary gs pos.column 0 hc hne
  refine ⟨c2p_ok_iff.mpr ⟨p2c_ok_le hok, ?_⟩, hline⟩
  rw [hline, hcol]

/-- C1, amended: for a valid position whose column stays strictly inside the
line's cluster list, or which lies on the last line, converting to a char
index and back is the identity.  (At the full grapheme count of a non-last
line the produced index is the start of the next line, and the round trip
lands there instead — see the counterexample.)  The theorem holds whether or
not the line is chunk-contiguous: on a line whose as_str() is None the
conversion only accepts column 0, which round-trips through the line
start. -/
theorem C1_position_roundtrip (b : Buffer) (pos : Position) (i : Nat)
    (hok : b.position_to_char_idx pos = .ok i)
    (hside : pos.column < (lineClusters (splitLines b.text) pos.line).length ∨
             pos.line + 1 = (splitLines b.text).length) :
    b.char_idx_to_position i = .ok pos := by
  have hok2 : position_to_char_idx b.chunks pos = .ok i := hok
  show char_idx_to_position b.chunks i = .ok pos
  have hside2 : pos.column <
      (lineClusters (splitLines b.chunks.flatten) pos.line).length ∨
      pos.line + 1 = (splitLines b.chunks.flatten).length := hside
  cases hct : lineContig b.chunks pos.line with
  | true =>
    rw [p2c_contig pos hct] at hok2
    obtain ⟨hres, hline⟩ := c1_whole hok2 hside2
    rw [c2p_contig i (by rw [hline]; exact hct)]
    exact hres
  | false =>
    obtain ⟨hk, hc, hi⟩ := p2cC_ok_iff.mp hok2
    rw [lineAsStr_of_noncontig hct] at hc hi
    have hc0 : pos.column = 0 := by
      simpa [seg] using hc
    have hi0 : i = lineToChar (splitLines b.chunks.flatten) pos.line := by
      rw [hi, hc0]
      simp [seg, sizeSum]
    have hline : charToLineAux (splitLines b.chunks.flatten) i = pos.line := by
      apply charToLineAux_spec _ pos.line i hk (by omega)
      rcases hside2 with hs | hs
      · left
        rw [hc0] at hs
        have hne : (splitLines b.chunks.flatten).getD pos.line [] ≠ [] := by
          intro h0
          rw [lineClusters, h0] at hs
          simp [seg] at hs
        have hpos : 0 < ((splitLines b.chunks.flatten).getD pos.line []).length :=
          List.length_pos.mpr hne
        omega
      · right
        exact hs
    have hle : i ≤ b.chunks.flatten.length := by
      have h2 := lineToChar_add_getD_le hk
      rw [splitLines_sum] at h2
      omega
    refine c2pC_ok_iff.mpr ⟨hle, ?_⟩
    rw [hline, hi0]
    have h0 : lineToChar (splitLines b.chunks.flatten) pos.line -
        lineToChar (splitLines b.chunks.flatten) pos.line = 0 := by omega
    rw [h0, columnFor_zero]
    cases pos with
    | mk pl pc => exact congrArg (Position.mk pl) hc0

/-- C1 counterexample: in the buffer "a\nb" the position (0,2) is valid
(line 0 is "a\n" with grapheme clusters "a" and "\n", so the column may
be 2), its char index is 2, but converting back yields (1,0), not (0,2). -/
theorem C1_counterexample :
    (Buffer.from_text ("a\nb").toList).position_to_char_idx ⟨0, 2⟩ = .ok 2 ∧
    (Buffer.from_text ("a\nb").toList).char_idx_to_position 2 = .ok ⟨1, 0⟩ ∧
    (Position.mk 1 0) ≠ ⟨0, 2⟩ ∧
    (0 : Nat) < (splitLines ("a\nb").toList).length ∧
    2 ≤ (lineClusters (splitLines ("a\nb").toList) 0).length := by
  decide

/-- Witness for the amended C1: the round trip is the identity at position
(1,2) of the buffer "Hello\nWorld\n" (the repository's own test input). -/
theorem C1_position_roundtrip_witness :
    (Buffer.from_text ("Hello\nWorld\n").toList).char_idx_to_position 8 =
      .ok ⟨1, 2⟩ := by
  have hok : (Buffer.from_text ("Hello\nWorld\n").toList).position_to_char_idx ⟨1, 2⟩ =
      .ok 8 := by decide
  exact C1_position_roundtrip _ _ _ hok (by decide)

/-- The cluster-boundary offsets of a cluster decomposition: the partial
codepoint sums of its first j clusters, j = 0 .. cluster count. -/
def clusterBoundaryOffsets (gs : List (List Char)) : List Nat :=
  (List.range (gs.length + 1)).map (fun j => sizeSum (gs.take j))

/-- Whether an absolute char offset falls on a grapheme-cluster boundary of
the line containing it. -/
def isClusterBoundary (t : List Char) (o : Nat) : Bool :=
  let ls := splitLines t
  let k := charToLineAux ls o
  (clusterBoundaryOffsets (lineClusters ls k)).contains (o - lineToChar ls k)

theorem c2_whole {t : List Char} {o : Nat}
    (ho : o ≤ t.length)
    (hbd : isClusterBoundary t o = true) :
    ∃ j, c2pWhole t o = .ok ⟨charToLineAux (splitLines t) o, j⟩ ∧
      p2cWhole t ⟨charToLineAux (splitLines t) o, j⟩ = .ok o := by
  have hlsne : splitLines t ≠ [] := splitLines_ne_nil _
  have hklt : charToLineAux (splitLines t) o < (splitLines t).length :=
    charToLineAux_lt hlsne o
  have hstart : lineToChar (splitLines t) (charToLineAux (splitLines t) o) ≤ o :=
    charToLineAux_start_le _ o
  have hne : ∀ g ∈ lineClusters (splitLines t) (charToLineAux (splitLines t) o),
      g ≠ [] := fun g hg => seg_mem_ne_nil hg
  unfold isClusterBoundary at hbd
  rw [List.contains_eq_any_beq] at hbd
  simp only [List.any_eq_true, beq_iff_eq] at hbd
  obtain ⟨off, hoff_mem, hoff_eq⟩ := hbd
  simp only [clusterBoundaryOffsets, List.mem_map, List.mem_range] at hoff_mem
  obtain ⟨j, hj_lt, hj_eq⟩ := hoff_mem
  have hj_le : j ≤
      (lineClusters (splitLines t) (charToLineAux (splitLines t) o)).length := by
    omega
  have hoff2 : o - lineToChar (splitLines t) (charToLineAux (splitLines t) o) =
      sizeSum ((lineClusters (splitLines t)
        (charToLineAux (splitLines t) o)).take j) := by
    omega
  have hcol : columnFor
      (lineClusters (splitLines t) (charToLineAux (splitLines t) o)) 0
      (o - lineToChar (splitLines t) (charToLineAux (splitLines t) o)) = j := by
    rw [hoff2]
    rw [show sizeSum ((lineClusters (splitLines t)
          (charToLineAux (splitLines t) o)).take j) =
        0 + sizeSum ((lineClusters (splitLines t)
          (charToLineAux (splitLines t) o)).take j) by omega]
    exact columnFor_boundary _ j 0 hj_le hne
  refine ⟨j, ?_, ?_⟩
  · apply c2p_ok_iff.mpr
    exact ⟨ho, by rw [hcol]⟩
  · apply p2c_ok_iff.mpr
    refine ⟨hklt, hj_le, ?_⟩
    dsimp only
    omega

/-- C2, amended: for a valid absolute offset lying on a grapheme-cluster
boundary, provided the line containing the offset is contiguous in one
rope chunk (so that line_content.as_str() in buffer.rs returns Some),
converting to a position and back is the identity.  Two amendments to the
spec sentence: an offset strictly inside a multi-codepoint cluster is
mapped to the cluster's end, not back to itself (see the counterexample),
and on a chunk-straddling line as_str() is None, the code segments the
empty string, and every interior offset collapses to column 0 and rounds
back to the line start. -/
theorem C2_offset_roundtrip (b : Buffer) (o : Nat)
    (ho : o ≤ b.text.length)
    (hbd : isClusterBoundary b.text o = true)
    (hct : lineContig b.chunks (charToLineAux (splitLines b.text) o) = true) :
    ∃ p, b.char_idx_to_position o = .ok p ∧ b.position_to_char_idx p = .ok o := by
  have ho2 : o ≤ b.chunks.flatten.length := ho
  have hbd2 : isClusterBoundary b.chunks.flatten o = true := hbd
  have hct2 : lineContig b.chunks (charToLineAux (splitLines b.chunks.flatten) o) =
      true := hct
  obtain ⟨j, hc2p, hp2c⟩ := c2_whole ho2 hbd2
  refine ⟨⟨charToLineAux (splitLines b.chunks.flatten) o, j⟩, ?_, ?_⟩
  · show char_idx_to_position b.chunks o = _
    rw [c2p_contig o hct2]
    exact hc2p
  · show position_to_char_idx b.chunks
      ⟨charToLineAux (splitLines b.chunks.flatten) o, j⟩ = _
    rw [p2c_contig ⟨charToLineAux (splitLines b.chunks.flatten) o, j⟩ hct2]
    exact hp2c

/-- C2 counterexample: in the buffer whose text is "e" followed by a
combining acute accent (one grapheme cluster of two codepoints), offset 1
falls strictly inside the cluster; the round trip yields 2, not 1. -/
theorem C2_counterexample :
    1 ≤ (['e', charCombiningAcute] : List Char).length ∧
    (Buffer.from_text ['e', charCombiningAcute]).char_idx_to_position 1 =
      .ok ⟨0, 1⟩ ∧
    (Buffer.from_text ['e', charCombiningAcute]).position_to_char_idx ⟨0, 1⟩ =
      .ok 2 ∧
    (2 : Nat) ≠ 1 := by
  decide

/-- Witness for the amended C2: offset 8 of "Hello\nWorld\n" is a cluster
boundary on a chunk-contiguous line and round-trips. -/
theorem C2_offset_roundtrip_witness :
    ∃ p, (Buffer.from_text ("Hello\nWorld\n").toList).char_idx_to_position 8 = .ok p ∧
      (Buffer.from_text ("Hello\nWorld\n").toList).position_to_char_idx p = .ok 8 :=
  C2_offset_roundtrip (Buffer.from_text ("Hello\nWorld\n").toList) 8 (by decide)
    (by decide) (by decide)

theorem head?_take : ∀ (l : List Char) (n : Nat),
    (l.take n).head? = if n = 0 then none else l.head?
  | [], n => by cases n <;> simp
  | c :: l, 0 => by simp
  | c :: l, n + 1 => by simp

theorem breakFree_mono {u w : List Char} (hsub : ∀ x, x ∈ w → x ∈ u)
    (hu : breakFree u) : breakFree w :=
  fun c hc => hu c (hsub c hc)

theorem flatten_take_sizeSum : ∀ (gs : List (List Char)) (c : Nat),
    gs.flatten.take (sizeSum (gs.take c)) = (gs.take c).flatten
  | gs, 0 => by simp [sizeSum]
  | [], c + 1 => by simp
  | g :: gs, c + 1 => by
    have ih := flatten_take_sizeSum gs c
    simp only [List.take_succ_cons, List.flatten_cons, sizeSum_cons]
    rw [List.take_append_eq_append_take]
    rw [List.take_of_length_le (by omega)]
    rw [show g.length + sizeSum (gs.take c) - g.length = sizeSum (gs.take c) by omega]
    rw [ih]

theorem break_not_extend {b : Char} (hb : isLineBreakChar b = true) :
    isExtendChar b = false := by
  simp only [isLineBreakChar, Bool.or_eq_true, beq_iff_eq] at hb
  rcases hb with ((((((h | h) | h) | h) | h) | h) | h) <;> subst h <;> decide

theorem ne_cr_of_breakFree {x : Char} (hx : isLineBreakChar x = false) :
    x ≠ '\r' := by
  intro h
  subst h
  simp [isLineBreakChar] at hx

theorem graphemeBoundary_true_of {x b : Char} (h1 : x ≠ '\r' ∨ b ≠ '\n')
    (h2 : isExtendChar b = false) : graphemeBoundary x b = true := by
  unfold graphemeBoundary
  have hfst : (x == '\r' && b == '\n') = false := by
    rcases h1 with h | h
    · simp [beq_eq_false_iff_ne, h]
    · simp [beq_eq_false_iff_ne, h]
  rw [hfst]
  simp [h2]

theorem seg_line_break {A : List Char} {b : Char} (hA : breakFree A)
    (hb : isLineBreakChar b = true) : seg (A ++ [b]) = seg A ++ [[b]] := by
  cases hAe : A with
  | nil => simp [seg]
  | cons a A0 =>
    rw [← hAe]
    have hAne : A ≠ [] := by rw [hAe]; simp
    rw [seg_append [b] hAne (by simp) ?_]
    · simp [seg]
    · intro x y hx hy
      simp at hy
      subst hy
      have hxA : x ∈ A := List.mem_of_mem_getLast? hx
      exact graphemeBoundary_true_of (Or.inl (ne_cr_of_breakFree (hA x hxA)))
        (break_not_extend hb)

theorem seg_line_crlf {A : List Char} (hA : breakFree A) :
    seg (A ++ ['\r', '\n']) = seg A ++ [['\r', '\n']] := by
  cases hAe : A with
  | nil => simp [seg, graphemeBoundary]
  | cons a A0 =>
    rw [← hAe]
    have hAne : A ≠ [] := by rw [hAe]; simp
    rw [seg_append ['\r', '\n'] hAne (by simp) ?_]
    · have : seg ['\r', '\n'] = [['\r', '\n']] := by decide
      rw [this]
    · intro x y hx hy
      simp at hy
      subst hy
      have hxA : x ∈ A := List.mem_of_mem_getLast? hx
      exact graphemeBoundary_true_of (Or.inl (ne_cr_of_breakFree (hA x hxA)))
        (by decide)

theorem seg_count_mono : ∀ (X Y : List Char), (seg X).length ≤ (seg (X ++ Y)).length
  | [], Y => by simp [seg]
  | [x], Y => by
    cases Y with
    | nil => simp
    | cons y Y2 =>
      simp only [List.singleton_append]
      rw [seg_cons_cons]
      cases hseg : seg (y :: Y2) with
      | nil => exact absurd hseg (seg_ne_nil (by simp))
      | cons g gs =>
        dsimp only
        by_cases hb : graphemeBoundary x y
        · rw [if_pos hb]; simp [seg]
        · rw [if_neg hb]; simp [seg]
  | x :: x2 :: xs, Y => by
    have ih := seg_count_mono (x2 :: xs) Y
    cases hseg : seg (x2 :: xs) with
    | nil => exact absurd hseg (seg_ne_nil (by simp))
    | cons g gs =>
      cases hseg2 : seg (x2 :: (xs ++ Y)) with
      | nil => exact absurd hseg2 (seg_ne_nil (by simp))
      | cons g2 gs2 =>
        have happ : (x :: x2 :: xs) ++ Y = x :: x2 :: (xs ++ Y) := by simp
        rw [happ]
        by_cases hb : graphemeBoundary x x2
        · have e1 : seg (x :: x2 :: xs) = [x] :: seg (x2 :: xs) := seg_cons_boundary hb
          have e2 : seg (x :: x2 :: (xs ++ Y)) = [x] :: seg (x2 :: (xs ++ Y)) :=
            seg_cons_boundary hb
          rw [e1, e2]
          simpa using ih
        · have e1 : seg (x :: x2 :: xs) = (x :: g) :: gs := seg_cons_noboundary hb hseg
          have e2 : seg (x :: x2 :: (xs ++ Y)) = (x :: g2) :: gs2 :=
            seg_cons_noboundary hb hseg2
          rw [e1, e2]
          simp only [List.cons_append] at ih
          rw [hseg, hseg2] at ih
          simpa using ih

theorem breakFree_first_line : ∀ (P Q : List Char), breakFree P →
    splitLines (P ++ Q) = (P ++ (splitLines Q).headD []) :: (splitLines Q).tail
  | [], Q, _ => by
    cases hq : splitLines Q with
    | nil => exact absurd hq (splitLines_ne_nil Q)
    | cons l ls =>
      rw [show ([] : List Char) ++ Q = Q from rfl, hq]
      simp
  | p :: P, Q, hbf => by
    have hp : isLineBreakChar p = false := hbf p (List.mem_cons_self _ _)
    have ih := breakFree_first_line P Q (fun c hc => hbf c (List.mem_cons_of_mem _ hc))
    have h1 : ¬(p = '\r' ∧ (P ++ Q).head? = some '\n') := by
      rintro ⟨hr, _⟩
      exact ne_cr_of_breakFree hp hr
    have h2 : ¬isLineBreakChar p = true := by rw [hp]; simp
    have hmain : (p :: P) ++ Q = p :: (P ++ Q) := by simp
    rw [hmain, splitLines_other h1 h2, ih]
    rfl

theorem p2c_ok_iff2 {t : List Char} {k c i : Nat} :
    p2cWhole t ⟨k, c⟩ = .ok i ↔
      k < (splitLines t).length ∧
      c ≤ (lineClusters (splitLines t) k).length ∧
      i = lineToChar (splitLines t) k +
          sizeSum ((lineClusters (splitLines t) k).take c) :=
  p2c_ok_iff

theorem lineClusters_cons (L : List Char) (rest : List (List Char)) (k : Nat) :
    lineClusters (L :: rest) (k + 1) = lineClusters rest k := by
  simp [lineClusters]

theorem lineClusters_zero (L : List Char) (rest : List (List Char)) :
    lineClusters (L :: rest) 0 = seg L := by
  simp [lineClusters]

theorem p2c_cons_down {u L v : List Char} {rest : List (List Char)}
    (hsplit : splitLines u = L :: rest) (hv : splitLines v = rest)
    {k c i : Nat} (hok : p2cWhole u ⟨k + 1, c⟩ = .ok i) :
    L.length ≤ i ∧ p2cWhole v ⟨k, c⟩ = .ok (i - L.length) := by
  obtain ⟨hk, hc, hi⟩ := p2c_ok_iff2.mp hok
  rw [hsplit] at hk hc hi
  rw [lineClusters_cons] at hc hi
  rw [lineToChar_cons] at hi
  constructor
  · omega
  · apply p2c_ok_iff2.mpr
    rw [hv]
    exact ⟨by simpa using hk, hc, by omega⟩

theorem p2c_cons_up {u L v : List Char} {rest : List (List Char)}
    (hsplit : splitLines u = L :: rest) (hv : splitLines v = rest)
    {k c m : Nat} (hok : p2cWhole v ⟨k, c⟩ = .ok m) :
    p2cWhole u ⟨k + 1, c⟩ = .ok (L.length + m) := by
  obtain ⟨hk, hc, hm⟩ := p2c_ok_iff2.mp hok
  rw [hv] at hk hc hm
  apply p2c_ok_iff2.mpr
  rw [hsplit, lineClusters_cons, lineToChar_cons]
  exact ⟨by simpa using hk, hc, by omega⟩

theorem length_flatten_sizeSum (gs : List (List Char)) :
    gs.flatten.length = sizeSum gs := by
  simp [sizeSum, List.length_flatten]

theorem p2c_zero_of_split {t L0 : List Char} {tl : List (List Char)} {c i : Nat}
    (hsp : splitLines t = L0 :: tl) (hc : c ≤ (seg L0).length)
    (hi : i = sizeSum ((seg L0).take c)) :
    p2cWhole t ⟨0, c⟩ = .ok i := by
  apply p2c_ok_iff2.mpr
  rw [hsp, lineClusters_zero]
  refine ⟨by simp, hc, ?_⟩
  rw [lineToChar_zero]
  omega

theorem p2c_flatten_take_self {B : List Char} {c : Nat} (hB : breakFree B)
    (hc : c ≤ (seg B).length) :
    p2cWhole (((seg B).take c).flatten) ⟨0, c⟩ =
      .ok (sizeSum ((seg B).take c)) := by
  have hbfW : breakFree (((seg B).take c).flatten) := by
    apply breakFree_mono ?_ hB
    intro x hx
    rw [List.mem_flatten] at hx
    obtain ⟨l, hl, hxl⟩ := hx
    have hl2 : l ∈ seg B := List.mem_of_mem_take hl
    have hx2 : x ∈ (seg B).flatten := List.mem_flatten.mpr ⟨l, hl2, hxl⟩
    rwa [seg_flatten] at hx2
  apply p2c_zero_of_split (breakFree_splitLines hbfW)
  · rw [seg_take_flatten, List.length_take]
    omega
  · rw [seg_take_flatten, List.take_take, show min c c = c from by omega]

theorem p2c_line_self {L : List Char} {c : Nat}
    (hshape : ∃ A, breakFree A ∧
      (L = A ++ ['\r', '\n'] ∨ ∃ b, isLineBreakChar b = true ∧ L = A ++ [b]))
    (hc : c ≤ (seg L).length) :
    p2cWhole L ⟨0, c⟩ = .ok (sizeSum ((seg L).take c)) := by
  obtain ⟨A, hA, hsh⟩ := hshape
  have hspL : splitLines L = L :: splitLines ([] : List Char) := by
    rcases hsh with h | ⟨b, hbk, h⟩
    · conv_lhs => rw [h, show A ++ ['\r', '\n'] = A ++ ['\r', '\n'] ++ ([] : List Char) by simp]
      rw [splitLines_cons_crlf A [] hA, ← h]
    · conv_lhs => rw [h, show A ++ [b] = A ++ [b] ++ ([] : List Char) by simp]
      rw [splitLines_cons_line A [] hA hbk (by intro _ hcl; simp at hcl), ← h]
  exact p2c_zero_of_split hspL hc rfl

theorem p2c_take_zero {t : List Char} {c i : Nat}
    (hok : p2cWhole t ⟨0, c⟩ = .ok i) :
    p2cWhole (t.take i) ⟨0, c⟩ = .ok i := by
  obtain ⟨hk0, hc, hi⟩ := p2c_ok_iff2.mp hok
  cases hsp : splitLines t with
  | nil => exact absurd hsp (splitLines_ne_nil t)
  | cons L rest =>
    rw [hsp] at hc hi
    rw [lineClusters_zero] at hc hi
    rw [lineToChar_zero] at hi
    simp only [Nat.zero_add] at hi
    have hiL : i ≤ L.length := by
      have h1 : sizeSum ((seg L).take c) ≤ sizeSum (seg L) := sizeSum_take_le _ _
      rw [sizeSum_seg] at h1
      omega
    have hflat := splitLines_flatten t
    rw [hsp] at hflat
    simp only [List.flatten_cons] at hflat
    have htake : t.take i = ((seg L).take c).flatten := by
      calc t.take i = L.take i := by
            rw [← hflat, List.take_append_eq_append_take,
              show i - L.length = 0 by omega, List.take_zero, List.append_nil]
        _ = (seg L).flatten.take (sizeSum ((seg L).take c)) := by rw [seg_flatten, hi]
        _ = ((seg L).take c).flatten := flatten_take_sizeSum _ _
    rw [htake, hi]
    cases rest with
    | nil =>
      obtain ⟨htL, hbfL⟩ := splitLines_singleton hsp
      subst htL
      exact p2c_flatten_take_self hbfL hc
    | cons r1 rtl =>
      obtain ⟨A, v, hA, hu, hv, hshape⟩ := splitLines_peel hsp (by simp)
      rcases hshape with hLcrlf | ⟨bq, hbk, hLb, hbr⟩
      · have hsegL : seg L = seg A ++ [['\r', '\n']] := by
          rw [hLcrlf]; exact seg_line_crlf hA
        by_cases hcA : c ≤ (seg A).length
        · have htc : (seg L).take c = (seg A).take c := by
            rw [hsegL, List.take_append_of_le_length hcA]
          rw [htc]
          exact p2c_flatten_take_self hA hcA
        · have hWL : (seg L).take c = seg L := by
            apply List.take_of_length_le
            rw [hsegL]
            simp only [List.length_append, List.length_cons, List.length_nil]
            omega
          rw [hWL, seg_flatten]
          have hres := p2c_line_self ⟨A, hA, Or.inl hLcrlf⟩ hc
          rw [hWL] at hres
          exact hres
      · have hsegL : seg L = seg A ++ [[bq]] := by
          rw [hLb]; exact seg_line_break hA hbk
        by_cases hcA : c ≤ (seg A).length
        · have htc : (seg L).take c = (seg A).take c := by
            rw [hsegL, List.take_append_of_le_length hcA]
          rw [htc]
          exact p2c_flatten_take_self hA hcA
        · have hWL : (seg L).take c = seg L := by
            apply List.take_of_length_le
            rw [hsegL]
            simp only [List.length_append, List.length_cons, List.length_nil]
            omega
          rw [hWL, seg_flatten]
          have hres := p2c_line_self ⟨A, hA, Or.inr ⟨bq, hbk, hLb⟩⟩ hc
          rw [hWL] at hres
          exact hres

theorem p2c_append_zero {P : List Char} {c : Nat} (Q : List Char)
    (hok : p2cWhole P ⟨0, c⟩ = .ok P.length) :
    ∃ m, p2cWhole (P ++ Q) ⟨0, c⟩ = .ok m := by
  obtain ⟨hk0, hc, hi⟩ := p2c_ok_iff2.mp hok
  cases hsp : splitLines P with
  | nil => exact absurd hsp (splitLines_ne_nil P)
  | cons L rest =>
    rw [hsp] at hc hi
    rw [lineClusters_zero] at hc hi
    rw [lineToChar_zero] at hi
    simp only [Nat.zero_add] at hi
    have hflat := splitLines_flatten P
    rw [hsp] at hflat
    simp only [List.flatten_cons] at hflat
    have hlen : P.length = L.length + rest.flatten.length := by
      rw [← hflat]
      simp
    have htle : sizeSum ((seg L).take c) ≤ L.length := by
      have h1 : sizeSum ((seg L).take c) ≤ sizeSum (seg L) := sizeSum_take_le _ _
      rwa [sizeSum_seg] at h1
    have hrest0 : rest.flatten.length = 0 := by omega
    have hceq : c = (seg L).length := by
      by_contra hne
      have hclt : c < (seg L).length := by omega
      have hstrict : sizeSum ((seg L).take c) < sizeSum (seg L) :=
        sizeSum_take_lt hclt (fun g hg => seg_mem_ne_nil hg)
      rw [sizeSum_seg] at hstrict
      omega
    cases rest with
    | nil =>
      obtain ⟨htL, hbfL⟩ := splitLines_singleton hsp
      subst htL
      refine ⟨_, p2c_zero_of_split (breakFree_first_line P Q hbfL) ?_ rfl⟩
      calc c = (seg P).length := hceq
        _ ≤ (seg (P ++ (splitLines Q).headD [])).length := seg_count_mono _ _
    | cons r1 rtl =>
      obtain ⟨A, v, hA, hu, hv, hshape⟩ := splitLines_peel hsp (by simp)
      have hv0 : v = [] := by
        have hvf := splitLines_flatten v
        rw [hv] at hvf
        have : v.length = 0 := by rw [← hvf]; omega
        exact List.length_eq_zero.mp this
      subst hv0
      simp only [List.append_nil] at hu
      subst hu
      rcases hshape with hLcrlf | ⟨bq, hbk, hLb, hbr⟩
      · have hsp2 : splitLines (P ++ Q) = P :: splitLines Q := by
          rw [hLcrlf]
          exact splitLines_cons_crlf A Q hA
        exact ⟨_, p2c_zero_of_split hsp2 hc rfl⟩
      · by_cases hQ : bq = '\r' ∧ Q.head? = some '\n'
        · obtain ⟨hbq, hQh⟩ := hQ
          cases Q with
          | nil => simp at hQh
          | cons q Q2 =>
            simp at hQh
            subst hQh
            subst hbq
            subst hLb
            have hsp2 : splitLines ((A ++ ['\r']) ++ '\n' :: Q2) =
                (A ++ ['\r', '\n']) :: splitLines Q2 := by
              rw [show (A ++ ['\r']) ++ '\n' :: Q2 = A ++ ['\r'] ++ '\n' :: Q2 by simp]
              exact splitLines_crlf_merge A Q2 hA
            refine ⟨_, p2c_zero_of_split hsp2 ?_ rfl⟩
            have h1 : seg (A ++ ['\r', '\n']) = seg A ++ [['\r', '\n']] := seg_line_crlf hA
            have h2 : seg (A ++ ['\r']) = seg A ++ [['\r']] :=
              seg_line_break hA (by decide)
            rw [h1]
            rw [h2] at hceq
            simp only [List.length_append, List.length_cons, List.length_nil] at hceq ⊢
            omega
        · have hcr : bq = '\r' → Q.head? ≠ some '\n' := by
            intro h1 h2
            exact hQ ⟨h1, h2⟩
          have hsp2 : splitLines (P ++ Q) = P :: splitLines Q := by
            rw [hLb]
            exact splitLines_cons_line A Q hA hbk hcr
          exact ⟨_, p2c_zero_of_split hsp2 hc rfl⟩

theorem p2c_take : ∀ (k : Nat) (t : List Char) (c i : Nat),
    p2cWhole t ⟨k, c⟩ = .ok i →
    p2cWhole (t.take i) ⟨k, c⟩ = .ok i
  | 0, t, c, i, hok => p2c_take_zero hok
  | k + 1, t, c, i, hok => by
    obtain ⟨hk, hc, hi⟩ := p2c_ok_iff2.mp hok
    cases hsp : splitLines t with
    | nil => exact absurd hsp (splitLines_ne_nil t)
    | cons L rest =>
      have hrest : rest ≠ [] := by
        rw [hsp] at hk
        intro h
        rw [h] at hk
        simp at hk
      obtain ⟨A, v, hA, hu, hv, hshape⟩ := splitLines_peel hsp hrest
      obtain ⟨hLi, hokv⟩ := p2c_cons_down hsp hv hok
      have ihv := p2c_take k v c (i - L.length) hokv
      have htake : t.take i = L ++ v.take (i - L.length) := by
        rw [hu, List.take_append_eq_append_take, List.take_of_length_le hLi]
      have hsp2 : splitLines (L ++ v.take (i - L.length)) =
          L :: splitLines (v.take (i - L.length)) := by
        rcases hshape with hcr | ⟨b, hbk, hLb, hbr⟩
        · rw [hcr]
          exact splitLines_cons_crlf A _ hA
        · rw [hLb]
          apply splitLines_cons_line A _ hA hbk
          intro hbr2 hhd
          rw [head?_take, ← hLb] at hhd
          by_cases h0 : i - L.length = 0
          · rw [if_pos h0] at hhd
            simp at hhd
          · rw [if_neg h0] at hhd
            exact hbr hbr2 hhd
      rw [htake]
      have hres := p2c_cons_up hsp2 rfl ihv
      rw [show L.length + (i - L.length) = i by omega] at hres
      exact hres

theorem p2c_append : ∀ (k : Nat) (P : List Char) (c : Nat) (Q : List Char),
    p2cWhole P ⟨k, c⟩ = .ok P.length →
    ∃ m, p2cWhole (P ++ Q) ⟨k, c⟩ = .ok m
  | 0, P, c, Q, hok => p2c_append_zero Q hok
  | k + 1, P, c, Q, hok => by
    obtain ⟨hk, hc, hi⟩ := p2c_ok_iff2.mp hok
    cases hsp : splitLines P with
    | nil => exact absurd hsp (splitLines_ne_nil P)
    | cons L rest =>
      have hrest : rest ≠ [] := by
        rw [hsp] at hk
        intro h
        rw [h] at hk
        simp at hk
      obtain ⟨A, v, hA, hu, hv, hshape⟩ := splitLines_peel hsp hrest
      obtain ⟨hLi, hokv⟩ := p2c_cons_down hsp hv hok
      have hlenv : P.length - L.length = v.length := by
        rw [hu]
        simp
      rw [hlenv] at hokv
      rcases hshape with hcrlf | ⟨b, hbk, hLb, hbr⟩
      · obtain ⟨m, hm⟩ := p2c_append k v c Q hokv
        have hsp2 : splitLines (L ++ (v ++ Q)) = L :: splitLines (v ++ Q) := by
          rw [hcrlf]
          exact splitLines_cons_crlf A _ hA
        refine ⟨L.length + m, ?_⟩
        have hres := p2c_cons_up hsp2 rfl hm
        rw [show L ++ (v ++ Q) = P ++ Q by rw [hu, List.append_assoc]] at hres
        exact hres
      · by_cases hmerge : b = '\r' ∧ (v ++ Q).head? = some '\n'
        · obtain ⟨hb, hhd⟩ := hmerge
          cases hv0 : v with
          | cons x xs =>
            rw [hv0] at hhd
            simp only [List.cons_append, List.head?_cons, Option.some.injEq] at hhd
            exfalso
            apply hbr hb
            rw [hv0]
            simp [hhd]
          | nil =>
            subst hv0
            obtain ⟨hk2, hc2, _⟩ := p2c_ok_iff2.mp hokv
            have hk0 : k = 0 := by
              simp [splitLines] at hk2
              omega
            have hc0 : c = 0 := by
              simp [splitLines, lineClusters, seg] at hc2
              exact hc2
            subst hk0
            subst hc0
            subst hb
            subst hLb
            cases Q with
            | nil => simp at hhd
            | cons q Q2 =>
              simp only [List.nil_append, List.head?_cons, Option.some.injEq] at hhd
              subst hhd
              have hPQ : P ++ '\n' :: Q2 = A ++ ['\r'] ++ '\n' :: Q2 := by
                rw [hu]
                simp
              rw [hPQ]
              have hsp2 := splitLines_crlf_merge A Q2 hA
              refine ⟨_, p2c_ok_iff2.mpr ⟨?_, ?_, rfl⟩⟩
              · rw [hsp2]
                simp only [List.length_cons]
                have := List.length_pos.mpr (splitLines_ne_nil Q2)
                omega
              · simp
        · obtain ⟨m, hm⟩ := p2c_append k v c Q hokv
          have hcr : b = '\r' → (v ++ Q).head? ≠ some '\n' := fun h1 h2 => hmerge ⟨h1, h2⟩
          have hsp2 : splitLines (L ++ (v ++ Q)) = L :: splitLines (v ++ Q) := by
            rw [hLb]
            exact splitLines_cons_line A _ hA hbk hcr
          refine ⟨L.length + m, ?_⟩
          have hres := p2c_cons_up hsp2 rfl hm
          rw [show L ++ (v ++ Q) = P ++ Q by rw [hu, List.append_assoc]] at hres
          exact hres

theorem insert_error_unchanged {b : Buffer} {pos : Position} {s : List Char} {e : EditorError}
    (he : (b.insert pos s).2 = .error e) : (b.insert pos s).1 = b := by
  unfold Buffer.insert at he ⊢
  by_cases hro : b.readOnly
  · rw [if_pos hro]
  · rw [if_neg hro] at he ⊢
    cases h1 : position_to_char_idx b.chunks pos with
    | error e2 => rfl
    | ok i =>
      rw [h1] at he
      simp at he

theorem delete_error_unchanged {b : Buffer} {start stop : Position} {e : EditorError}
    (he : (b.delete start stop).2 = .error e) : (b.delete start stop).1 = b := by
  unfold Buffer.delete at he ⊢
  by_cases hro : b.readOnly
  · rw [if_pos hro]
  · rw [if_neg hro] at he ⊢
    cases h1 : position_to_char_idx b.chunks start with
    | error e2 => rfl
    | ok i =>
      cases h2 : position_to_char_idx b.chunks stop with
      | error e2 => rfl
      | ok j =>
        rw [h1, h2] at he
        dsimp only at he ⊢
        by_cases hij : i > j
        · rw [if_pos hij]
        · rw [if_neg hij] at he
          simp at he

theorem delete_ok_spec {b : Buffer} {start stop : Position} {b2 : Buffer} {d : List Char}
    (h : b.delete start stop = (b2, .ok d)) :
    b.readOnly = false ∧
    ∃ i j, position_to_char_idx b.chunks start = .ok i ∧
      position_to_char_idx b.chunks stop = .ok j ∧ i ≤ j ∧
      b2 = { b with chunks := rechunk (b.text.take i ++ b.text.drop j),
                    version := b.version + 1, dirty := true } ∧
      d = (b.text.drop i).take (j - i) := by
  unfold Buffer.delete at h
  by_cases hro : b.readOnly
  · rw [if_pos hro] at h
    simp at h
  · rw [if_neg hro] at h
    refine ⟨by simpa using hro, ?_⟩
    cases h1 : position_to_char_idx b.chunks start with
    | error e => rw [h1] at h; simp at h
    | ok i =>
      rw [h1] at h
      cases h2 : position_to_char_idx b.chunks stop with
      | error e => rw [h2] at h; simp at h
      | ok j =>
        rw [h2] at h
        dsimp only at h
        by_cases hij : i > j
        · rw [if_pos hij] at h
          simp at h
        · rw [if_neg hij] at h
          have hp := Prod.mk.injEq _ _ _ _ ▸ h
          obtain ⟨hb, hd⟩ := Prod.mk.inj h
          refine ⟨i, j, rfl, rfl, by omega, hb.symm, ?_⟩
          injection hd with hd2
          exact hd2.symm

theorem insert_ok_of_valid {b : Buffer} {pos : Position} {s : List Char} {m : Nat}
    (hro : b.readOnly = false) (hok : position_to_char_idx b.chunks pos = .ok m) :
    (b.insert pos s).2 = .ok () := by
  unfold Buffer.insert
  rw [hro]
  simp only [Bool.false_eq_true, if_false]
  rw [hok]

/-- Helper: a nonempty text no longer than one chunk stays in one piece. -/
theorem rechunkAux_single : ∀ (n : Nat) (u : List Char), u ≠ [] →
    u.length ≤ chunkMax → rechunkAux n u = [u]
  | 0, [], h, _ => absurd rfl h
  | 0, _ :: _, _, _ => rfl
  | n + 1, [], h, _ => absurd rfl h
  | n + 1, c :: ts, _, hle => by
    show List.take chunkMax (c :: ts) :: rechunkAux n (List.drop chunkMax (c :: ts)) =
      [c :: ts]
    rw [List.take_of_length_le hle, List.drop_eq_nil_of_le hle,
      show rechunkAux n ([] : List Char) = [] from by cases n <;> rfl]

/-- Helper: a text between one and two chunks long splits in exactly two. -/
theorem rechunk_two {t : List Char} (h1 : chunkMax < t.length)
    (h2 : t.length ≤ 2 * chunkMax) :
    rechunk t = [t.take chunkMax, t.drop chunkMax] := by
  cases t with
  | nil => simp at h1
  | cons c ts =>
    show rechunkAux (c :: ts).length (c :: ts) = _
    rw [List.length_cons]
    show List.take chunkMax (c :: ts) ::
      rechunkAux ts.length (List.drop chunkMax (c :: ts)) = _
    have hne : List.drop chunkMax (c :: ts) ≠ [] := by
      intro h0
      have hl := congrArg List.length h0
      rw [List.length_drop] at hl
      simp only [List.length_cons, List.length_nil] at hl
      simp only [List.length_cons] at h1
      omega
    have hle2 : (List.drop chunkMax (c :: ts)).length ≤ chunkMax := by
      rw [List.length_drop]
      simp only [List.length_cons] at h2 ⊢
      omega
    rw [rechunkAux_single ts.length (List.drop chunkMax (c :: ts)) hne hle2]

theorem from_text_chunks (t : List Char) :
    (Buffer.from_text t).chunks = rechunk t := rfl

theorem from_text_readOnly (t : List Char) :
    (Buffer.from_text t).readOnly = false := rfl

theorem breakFree_replicate (n : Nat) {c : Char} (hc : isLineBreakChar c = false) :
    breakFree (List.replicate n c) := by
  intro x hx
  rw [List.eq_of_mem_replicate hx]
  exact hc

theorem breakFree_append {u v : List Char} (hu : breakFree u) (hv : breakFree v) :
    breakFree (u ++ v) := by
  intro x hx
  rcases List.mem_append.mp hx with h | h
  · exact hu x h
  · exact hv x h

/-- Segmenting a run of a self-bounding character before a cluster-opening
character yields singleton clusters for the run. -/
theorem seg_replicate_append {c : Char} (hcc : graphemeBoundary c c = true) :
    ∀ (n : Nat) (z : Char) (zs : List Char), graphemeBoundary c z = true →
    seg (List.replicate n c ++ z :: zs) = List.replicate n [c] ++ seg (z :: zs) := by
  intro n
  induction n with
  | zero =>
    intro z zs _
    simp
  | succ m ih =>
    intro z zs hcz
    rw [List.replicate_succ, List.cons_append]
    cases m with
    | zero =>
      simp only [List.replicate, List.nil_append]
      rw [seg_cons_boundary hcz]
      rfl
    | succ k =>
      have htail : List.replicate (k + 1) c ++ z :: zs =
          c :: (List.replicate k c ++ z :: zs) := by
        rw [List.replicate_succ, List.cons_append]
      rw [htail, seg_cons_boundary hcc, ← htail, ih z zs hcz]
      rfl

theorem seg_replicate_single {c b : Char} (hcc : graphemeBoundary c c = true)
    (hcb : graphemeBoundary c b = true) (n : Nat) :
    seg (List.replicate n c ++ [b]) = List.replicate n [c] ++ [[b]] :=
  seg_replicate_append hcc n b [] hcb

theorem sizeSum_replicate_single (n : Nat) (c : Char) :
    sizeSum (List.replicate n [c]) = n := by
  induction n with
  | zero => rfl
  | succ m ih =>
    rw [List.replicate_succ, sizeSum_cons, ih, List.length_singleton]
    omega

/-- The text used to exhibit the chunk-straddling bug: two lines of 600
ASCII characters joined by a newline.  Deleting the line break merges them
into a single 1200-character line, longer than ropey's 1024-byte maximum
chunk, so the merged line can never be contiguous in one chunk. -/
def longLinesText : List Char :=
  List.replicate 600 'a' ++ '\n' :: List.replicate 600 'b'

def longLinesBuffer : Buffer := Buffer.from_text longLinesText

/-- The merged single-line text left behind by deleting the line break. -/
def mergedText : List Char :=
  List.replicate 600 'a' ++ List.replicate 600 'b'

/-- The buffer state after the delete step of the failing replace. -/
def mergedBuffer : Buffer :=
  { longLinesBuffer with
      chunks := [mergedText.take chunkMax, mergedText.drop chunkMax]
      version := longLinesBuffer.version + 1
      dirty := true }

theorem longLinesText_eq :
    longLinesText = (List.replicate 600 'a' ++ ['\n']) ++ List.replicate 600 'b' := by
  rw [List.append_assoc]
  simp only [List.singleton_append]
  rfl

theorem replicate600a_length : (List.replicate 600 'a' : List Char).length = 600 := by
  rw [List.length_replicate]

theorem line0_length : ((List.replicate 600 'a' : List Char) ++ ['\n']).length = 601 := by
  rw [List.length_append, List.length_replicate]
  rfl

theorem longLinesText_length : longLinesText.length = 1201 := by
  rw [longLinesText_eq, List.length_append, line0_length, List.length_replicate]

theorem mergedText_length : mergedText.length = 1200 := by
  show (List.replicate 600 'a' ++ List.replicate 600 'b' : List Char).length = 1200
  rw [List.length_append, List.length_replicate, List.length_replicate]

theorem splitLines_longLinesText :
    splitLines longLinesText =
      [List.replicate 600 'a' ++ ['\n'], List.replicate 600 'b'] := by
  rw [longLinesText_eq]
  rw [splitLines_cons_line (List.replicate 600 'a') (List.replicate 600 'b')
    (breakFree_replicate 600 (by decide)) (by decide)
    (fun h => absurd h (by decide))]
  rw [breakFree_splitLines (breakFree_replicate 600 (by decide))]

theorem longLines_flatten : longLinesBuffer.chunks.flatten = longLinesText := by
  rw [show longLinesBuffer.chunks = rechunk longLinesText from
    from_text_chunks longLinesText]
  exact rechunk_flatten longLinesText

theorem longLines_chunks :
    longLinesBuffer.chunks =
      [longLinesText.take chunkMax, longLinesText.drop chunkMax] := by
  rw [show longLinesBuffer.chunks = rechunk longLinesText from
    from_text_chunks longLinesText]
  exact rechunk_two (by rw [longLinesText_length]; decide)
    (by rw [longLinesText_length]; decide)

theorem longLines_lineAsStr0 :
    lineAsStr longLinesBuffer.chunks 0 = List.replicate 600 'a' ++ ['\n'] := by
  unfold lineAsStr
  rw [longLines_flatten, splitLines_longLinesText, lineToChar_zero,
    List.getD_cons_zero, longLines_chunks]
  simp only [sliceAsStr]
  rw [if_pos (by
    rw [line0_length, List.length_take, longLinesText_length]
    decide)]
  simp only [Option.getD_some, List.drop_zero, Nat.zero_add, Nat.sub_zero]
  rw [line0_length, List.take_take,
    show min 601 chunkMax = 601 from by decide, longLinesText_eq]
  exact List.take_left' line0_length

theorem longLines_p2c_start :
    position_to_char_idx longLinesBuffer.chunks ⟨0, 600⟩ = .ok 600 := by
  unfold position_to_char_idx
  dsimp only
  rw [longLines_flatten, splitLines_longLinesText, longLines_lineAsStr0,
    seg_replicate_single (by decide) (by decide) 600]
  rw [if_neg (by decide)]
  rw [if_neg (by
    rw [List.length_append, List.length_replicate, List.length_singleton]
    omega)]
  rw [lineToChar_zero,
    List.take_left' (show (List.replicate 600 (['a'] : List Char)).length = 600
      from by rw [List.length_replicate]),
    sizeSum_replicate_single]

theorem longLines_p2c_stop :
    position_to_char_idx longLinesBuffer.chunks ⟨1, 0⟩ = .ok 601 := by
  unfold position_to_char_idx
  dsimp only
  rw [longLines_flatten, splitLines_longLinesText]
  rw [if_neg (by decide)]
  rw [if_neg (Nat.not_lt_zero _)]
  rw [List.take_zero, lineToChar_cons, lineToChar_zero, line0_length]
  rfl

theorem longLines_take600 : longLinesText.take 600 = List.replicate 600 'a' := by
  show (List.replicate 600 'a' ++ '\n' :: List.replicate 600 'b').take 600 = _
  exact List.take_left' replicate600a_length

theorem longLines_drop601 : longLinesText.drop 601 = List.replicate 600 'b' := by
  rw [longLinesText_eq]
  exact List.drop_left' line0_length

theorem longLines_drop600 :
    longLinesText.drop 600 = '\n' :: List.replicate 600 'b' := by
  show (List.replicate 600 'a' ++ '\n' :: List.replicate 600 'b').drop 600 = _
  exact List.drop_left' replicate600a_length

theorem longLines_delete :
    longLinesBuffer.delete ⟨0, 600⟩ ⟨1, 0⟩ = (mergedBuffer, .ok ['\n']) := by
  unfold Buffer.delete
  rw [show longLinesBuffer.readOnly = false from from_text_readOnly longLinesText]
  simp only [Bool.false_eq_true, if_false]
  rw [longLines_p2c_start, longLines_p2c_stop]
  dsimp only
  rw [if_neg (by omega : ¬ (600 : Nat) > 601)]
  rw [show longLinesBuffer.text = longLinesText from from_text_text longLinesText]
  rw [longLines_take600, longLines_drop601, longLines_drop600]
  rw [show List.replicate 600 'a' ++ List.replicate 600 'b' = mergedText from rfl]
  rw [rechunk_two (by rw [mergedText_length]; decide)
    (by rw [mergedText_length]; decide)]
  rfl

theorem mergedText_breakFree : breakFree mergedText :=
  breakFree_append (breakFree_replicate 600 (by decide))
    (breakFree_replicate 600 (by decide))

theorem mergedBuffer_text : mergedBuffer.text = mergedText := by
  show ([mergedText.take chunkMax, mergedText.drop chunkMax] :
    List (List Char)).flatten = mergedText
  simp only [List.flatten_cons, List.flatten_nil, List.append_nil]
  exact List.take_append_drop chunkMax mergedText

theorem merged_p2c_error :
    position_to_char_idx mergedBuffer.chunks ⟨0, 600⟩ =
      .error (.InvalidPosition 0 600) := by
  have hsp : splitLines mergedBuffer.chunks.flatten = [mergedText] := by
    rw [show mergedBuffer.chunks.flatten = mergedText from mergedBuffer_text]
    exact breakFree_splitLines mergedText_breakFree
  have hstr : lineAsStr mergedBuffer.chunks 0 = [] := by
    unfold lineAsStr
    rw [hsp, lineToChar_zero, List.getD_cons_zero]
    show (sliceAsStr [mergedText.take chunkMax, mergedText.drop chunkMax] 0
      (0 + mergedText.length)).getD [] = []
    simp only [sliceAsStr]
    rw [if_neg (by
      rw [List.length_take, mergedText_length]
      decide)]
    rw [if_neg (by
      rw [List.length_take, mergedText_length]
      decide)]
    rfl
  unfold position_to_char_idx
  rw [hsp, hstr]
  rw [if_neg (by decide)]
  rw [if_pos (by decide)]

theorem merged_insert_error :
    mergedBuffer.insert ⟨0, 600⟩ ['x'] =
      (mergedBuffer, .error (.InvalidPosition 0 600)) := by
  unfold Buffer.insert
  rw [show mergedBuffer.readOnly = false from from_text_readOnly longLinesText]
  simp only [Bool.false_eq_true, if_false]
  rw [merged_p2c_error]

theorem longLines_replace :
    longLinesBuffer.replace ⟨0, 600⟩ ⟨1, 0⟩ ['x'] =
      (mergedBuffer, .error (.InvalidPosition 0 600)) := by
  unfold Buffer.replace
  rw [longLines_delete]
  dsimp only
  rw [merged_insert_error]

/-- C3 (code bug): replace is NOT all-or-nothing.  On the two-long-lines
buffer, replace of the range (0,600)-(1,0) first deletes the line break —
merging the lines into one 1200-character line that straddles chunks —
and then re-converts the start position for the internal insert.  That
conversion segments line.as_str().unwrap_or(""), which is the EMPTY
string on the now chunk-straddling line (buffer.rs line 250), so column
600 exceeds the 0 grapheme clusters found and the insert step fails with
InvalidPosition AFTER the delete has already mutated the buffer: the
returned buffer differs from the original (the line break is gone and
the version advanced) even though the call returned an error. -/
theorem C3_replace_partial_mutation :
    (longLinesBuffer.replace ⟨0, 600⟩ ⟨1, 0⟩ ['x']).2 =
      .error (.InvalidPosition 0 600) ∧
    (longLinesBuffer.replace ⟨0, 600⟩ ⟨1, 0⟩ ['x']).1 ≠ longLinesBuffer ∧
    ((longLinesBuffer.replace ⟨0, 600⟩ ⟨1, 0⟩ ['x']).1).text =
      List.replicate 600 'a' ++ List.replicate 600 'b' ∧
    ((longLinesBuffer.replace ⟨0, 600⟩ ⟨1, 0⟩ ['x']).1).version =
      longLinesBuffer.version + 1 := by
  rw [longLines_replace]
  refine ⟨rfl, ?_, ?_, rfl⟩
  · intro h
    have hv := congrArg Buffer.version h
    rw [show mergedBuffer.version = longLinesBuffer.version + 1 from rfl] at hv
    omega
  · exact mergedBuffer_text

/-- A read-only buffer, on which every mutating operation fails and leaves
the buffer unchanged; used as the concrete input of the C8 witness. -/
def roBuffer : Buffer :=
  { chunks := [['a']], version := 0, dirty := false, readOnly := true
    lineEnding := LineEnding.Lf }

/-- A first-class description of one mutating buffer call, used to quantify
over "any subsequent successful insert, delete or replace". -/
inductive BufferEdit where
  | ins (pos : Position) (s : List Char)
  | del (start stop : Position)
  | rep (start stop : Position) (s : List Char)

def exceptOk {e a : Type} : Except e a → Bool
  | .ok _ => true
  | .error _ => false

/-- Applies one edit, returning the mutated buffer and whether it succeeded. -/
def applyEdit (b : Buffer) : BufferEdit → Buffer × Bool
  | .ins pos s => ((b.insert pos s).1, exceptOk (b.insert pos s).2)
  | .del start stop => ((b.delete start stop).1, exceptOk (b.delete start stop).2)
  | .rep start stop s => ((b.replace start stop s).1, exceptOk (b.replace start stop s).2)

/-- C4: a BufferSnapshot is isolated from later mutation — after any
successful insert, delete or replace on the live buffer, the snapshot taken
beforehand still reports the text, version, line count, char count and
line contents of the moment it was taken. -/
theorem C4_snapshot_isolated (b : Buffer) (ed : BufferEdit) (idx : Nat)
    (hsucc : (applyEdit b ed).2 = true) :
    (b.snapshot).text = b.text ∧
    (b.snapshot).version = b.version ∧
    (b.snapshot).len_lines = (splitLines b.text).length ∧
    (b.snapshot).len_chars = b.text.length ∧
    (b.snapshot).line idx =
      (if idx < (splitLines b.text).length
       then some ((splitLines b.text).getD idx []) else none) :=
  ⟨rfl, rfl, rfl, rfl, rfl⟩

/-- Witness for C4: the repository's own snapshot test — snapshot "Hello",
then insert " World" successfully; the snapshot still shows "Hello". -/
theorem C4_snapshot_isolated_witness :
    ((Buffer.from_text ("Hello").toList).snapshot).text =
        (Buffer.from_text ("Hello").toList).text ∧
    ((Buffer.from_text ("Hello").toList).snapshot).version =
        (Buffer.from_text ("Hello").toList).version ∧
    ((Buffer.from_text ("Hello").toList).snapshot).len_lines =
        (splitLines (Buffer.from_text ("Hello").toList).text).length ∧
    ((Buffer.from_text ("Hello").toList).snapshot).len_chars =
        (Buffer.from_text ("Hello").toList).text.length ∧
    ((Buffer.from_text ("Hello").toList).snapshot).line 0 =
      (if 0 < (splitLines (Buffer.from_text ("Hello").toList).text).length
       then some ((splitLines (Buffer.from_text ("Hello").toList).text).getD 0 [])
       else none) :=
  C4_snapshot_isolated (Buffer.from_text ("Hello").toList)
    (.ins ⟨0, 5⟩ (" World").toList) 0 (by decide)

theorem p2c_error_shape {chunks : List (List Char)} {pos : Position} {e : EditorError}
    (h : position_to_char_idx chunks pos = .error e) :
    e = .InvalidPosition pos.line pos.column := by
  unfold position_to_char_idx at h
  by_cases h1 : pos.line ≥ (splitLines chunks.flatten).length
  · simp only [h1, if_true] at h
    injection h with h
    exact h.symm
  · simp only [h1, if_false] at h
    by_cases h2 : pos.column > (seg (lineAsStr chunks pos.line)).length
    · simp only [h2, if_true] at h
      injection h with h
      exact h.symm
    · simp only [h2, if_false] at h
      exact absurd h (by simp)

theorem insert_error_shape {b : Buffer} {pos : Position} {s : List Char} {e : EditorError}
    (hro : b.readOnly = false) (h : (b.insert pos s).2 = .error e) :
    e = .InvalidPosition pos.line pos.column := by
  unfold Buffer.insert at h
  rw [hro] at h
  simp only [Bool.false_eq_true, if_false] at h
  cases h1 : position_to_char_idx b.chunks pos with
  | error e2 =>
    rw [h1] at h
    injection h with h
    rw [← h]
    exact p2c_error_shape h1
  | ok i =>
    rw [h1] at h
    simp at h

theorem delete_error_shape {b : Buffer} {start stop : Position} {e : EditorError}
    (hro : b.readOnly = false) (h : (b.delete start stop).2 = .error e) :
    (∃ l c, e = .InvalidPosition l c) ∨
    e = .InvalidRange "start position is after end position" := by
  unfold Buffer.delete at h
  rw [hro] at h
  simp only [Bool.false_eq_true, if_false] at h
  cases h1 : position_to_char_idx b.chunks start with
  | error e2 =>
    rw [h1] at h
    injection h with h
    rw [← h]
    exact Or.inl ⟨start.line, start.column, p2c_error_shape h1⟩
  | ok i =>
    rw [h1] at h
    cases h2 : position_to_char_idx b.chunks stop with
    | error e2 =>
      rw [h2] at h
      injection h with h
      rw [← h]
      exact Or.inl ⟨stop.line, stop.column, p2c_error_shape h2⟩
    | ok j =>
      rw [h2] at h
      dsimp only at h
      by_cases hij : i > j
      · rw [if_pos hij] at h
        injection h with h
        exact Or.inr h.symm
      · rw [if_neg hij] at h
        simp at h

/-- C8: when the read-only flag is set, insert, delete and replace all fail
with the ReadOnly condition ("Buffer is read-only") and leave the buffer
untouched; when it is clear, none of the three ever produces that error. -/
theorem C8_read_only (b : Buffer) (pos start stop : Position) (s r : List Char) :
    (b.readOnly = true →
      b.insert pos s = (b, .error (.BufferError "Buffer is read-only")) ∧
      b.delete start stop = (b, .error (.BufferError "Buffer is read-only")) ∧
      b.replace start stop r = (b, .error (.BufferError "Buffer is read-only"))) ∧
    (b.readOnly = false →
      (b.insert pos s).2 ≠ .error (.BufferError "Buffer is read-only") ∧
      (b.delete start stop).2 ≠ .error (.BufferError "Buffer is read-only") ∧
      (b.replace start stop r).2 ≠ .error (.BufferError "Buffer is read-only")) := by
  constructor
  · intro hro
    have hins : b.insert pos s = (b, .error (.BufferError "Buffer is read-only")) := by
      unfold Buffer.insert
      rw [if_pos hro]
    have hdel : ∀ a z : Position,
        b.delete a z = (b, .error (.BufferError "Buffer is read-only")) := by
      intro a z
      unfold Buffer.delete
      rw [if_pos hro]
    refine ⟨hins, hdel start stop, ?_⟩
    unfold Buffer.replace
    rw [hdel start stop]
  · intro hro
    refine ⟨?_, ?_, ?_⟩
    · intro h
      have hsh := insert_error_shape hro h
      simp at hsh
    · intro h
      have hsh := delete_error_shape hro h
      rcases hsh with ⟨l, c, hsh⟩ | hsh <;> simp at hsh
    · intro h
      unfold Buffer.replace at h
      cases hdel : b.delete start stop with
      | mk b1 r1 =>
        rw [hdel] at h
        cases r1 with
        | error e1 =>
          dsimp only at h
          injection h with h
          have hsh := delete_error_shape hro (by rw [hdel])
          rw [h] at hsh
          rcases hsh with ⟨l, c, hsh⟩ | hsh <;> simp at hsh
        | ok d =>
          dsimp only at h
          have hro1 : b1.readOnly = false := by
            obtain ⟨_, i, j, _, _, _, hb1, _⟩ := delete_ok_spec hdel
            rw [hb1]
            exact hro
          cases hins : b1.insert start r with
          | mk b2 r2 =>
            rw [hins] at h
            cases r2 with
            | error e2 =>
              dsimp only at h
              injection h with h
              have hsh := insert_error_shape hro1 (by rw [hins])
              rw [h] at hsh
              simp at hsh
            | ok u =>
              simp at h

/-- Witness for C8 at concrete inputs: a read-only one-char buffer fails all
three operations with the ReadOnly condition, while the same text in a
writable buffer never produces it. -/
theorem C8_read_only_witness :
    roBuffer.insert ⟨0, 0⟩ ['x'] =
      (roBuffer, .error (.BufferError "Buffer is read-only")) ∧
    roBuffer.delete ⟨0, 0⟩ ⟨0, 1⟩ =
      (roBuffer, .error (.BufferError "Buffer is read-only")) ∧
    roBuffer.replace ⟨0, 0⟩ ⟨0, 1⟩ ['x'] =
      (roBuffer, .error (.BufferError "Buffer is read-only")) ∧
    ((Buffer.from_text ['a']).insert ⟨0, 0⟩ ['x']).2 ≠
      .error (.BufferError "Buffer is read-only") :=
  ⟨((C8_read_only roBuffer ⟨0, 0⟩ ⟨0, 0⟩ ⟨0, 1⟩ ['x'] ['x']).1 rfl).1,
   ((C8_read_only roBuffer ⟨0, 0⟩ ⟨0, 0⟩ ⟨0, 1⟩ ['x'] ['x']).1 rfl).2.1,
   ((C8_read_only roBuffer ⟨0, 0⟩ ⟨0, 0⟩ ⟨0, 1⟩ ['x'] ['x']).1 rfl).2.2,
   ((C8_read_only (Buffer.from_text ['a']) ⟨0, 0⟩ ⟨0, 0⟩ ⟨0, 1⟩ ['x'] ['x']).2 rfl).1⟩

theorem sizeSum_take_mono (gs : List (List Char)) {c1 c2 : Nat} (h : c1 ≤ c2) :
    sizeSum (gs.take c1) ≤ sizeSum (gs.take c2) := by
  have he : gs.take c1 = (gs.take c2).take c1 := by
    rw [List.take_take, Nat.min_eq_left h]
  rw [he]
  exact sizeSum_take_le _ _

theorem lineToChar_mono (ls : List (List Char)) {k1 k2 : Nat} (h : k1 ≤ k2) :
    lineToChar ls k1 ≤ lineToChar ls k2 :=
  sizeSum_take_mono ls h

theorem lineToChar_succ (ls : List (List Char)) {k : Nat} (hk : k < ls.length) :
    lineToChar ls (k + 1) = lineToChar ls k + (ls.getD k []).length := by
  unfold lineToChar
  rw [List.take_succ]
  rw [List.getElem?_eq_getElem hk]
  rw [List.getD_eq_getElem ls [] hk]
  simp only [Option.toList_some, List.map_append, List.sum_append, List.map_cons,
    List.map_nil, List.sum_cons, List.sum_nil]
  omega

theorem p2c_le_posLe {t : List Char} {p q : Position} {i j : Nat}
    (hp : p2cWhole t p = .ok i) (hq : p2cWhole t q = .ok j)
    (hle : posLe p q = true) : i ≤ j := by
  obtain ⟨hkp, hcp, hip⟩ := p2c_ok_iff.mp hp
  obtain ⟨hkq, hcq, hiq⟩ := p2c_ok_iff.mp hq
  unfold posLe at hle
  rw [decide_eq_true_eq] at hle
  rcases hle with hlt | ⟨heq, hcle⟩
  · have hb1 : sizeSum ((lineClusters (splitLines t) p.line).take p.column) ≤
        ((splitLines t).getD p.line []).length := by
      calc sizeSum ((lineClusters (splitLines t) p.line).take p.column)
          ≤ sizeSum (lineClusters (splitLines t) p.line) := sizeSum_take_le _ _
        _ = ((splitLines t).getD p.line []).length := sizeSum_seg _
    have hb2 := lineToChar_succ (splitLines t) hkp
    have hb3 : lineToChar (splitLines t) (p.line + 1) ≤ lineToChar (splitLines t) q.line :=
      lineToChar_mono _ (by omega)
    omega
  · rw [heq] at hip
    have hb4 : sizeSum ((lineClusters (splitLines t) q.line).take p.column) ≤
        sizeSum ((lineClusters (splitLines t) q.line).take q.column) :=
      sizeSum_take_mono _ hcle
    omega

/-- C9 (code bug): on a writable buffer and a valid ordered range — both
position conversions succeed and start precedes stop — delete behaves
exactly as the spec says: it removes the range (here the line break
between two 600-character lines), returns precisely that slice, bumps
the version and sets the dirty flag.  But replace on the very same valid
range does NOT return the removed text: the delete merges the two lines
into one 1200-character line that straddles rope chunks, the internal
insert re-converts start against line.as_str().unwrap_or("") — the
empty string, buffer.rs line 250 — and replace returns InvalidPosition
instead of .ok of the removed text. -/
theorem C9_delete_ok_replace_error :
    longLinesBuffer.readOnly = false ∧
    longLinesBuffer.position_to_char_idx ⟨0, 600⟩ = .ok 600 ∧
    longLinesBuffer.position_to_char_idx ⟨1, 0⟩ = .ok 601 ∧
    posLe ⟨0, 600⟩ ⟨1, 0⟩ = true ∧
    longLinesBuffer.delete ⟨0, 600⟩ ⟨1, 0⟩ = (mergedBuffer, .ok ['\n']) ∧
    ['\n'] = (longLinesBuffer.text.drop 600).take (601 - 600) ∧
    mergedBuffer.text =
      longLinesBuffer.text.take 600 ++ longLinesBuffer.text.drop 601 ∧
    mergedBuffer.version = longLinesBuffer.version + 1 ∧
    mergedBuffer.dirty = true ∧
    (longLinesBuffer.replace ⟨0, 600⟩ ⟨1, 0⟩ ['x']).2 =
      .error (.InvalidPosition 0 600) := by
  refine ⟨from_text_readOnly longLinesText, longLines_p2c_start,
    longLines_p2c_stop, by decide, longLines_delete, ?_, ?_, rfl, rfl, ?_⟩
  · rw [show longLinesBuffer.text = longLinesText from from_text_text longLinesText,
      longLines_drop600]
    rfl
  · rw [mergedBuffer_text,
      show longLinesBuffer.text = longLinesText from from_text_text longLinesText,
      longLines_take600, longLines_drop601]
    rfl
  · rw [longLines_replace]

/-- Common error type for bidi text processing (bidi-text lib.rs). -/
inductive BidiError where
  | InvalidParagraph (n : Nat)
  | InvalidPosition (n : Nat)
  | ProcessingError (msg : String)
deriving DecidableEq, Repr

/-- Direction of cursor movement (cursor.rs). -/
inductive MovementDirection where
  | Left
  | Right
  | Up
  | Down
  | Home
  | End
deriving DecidableEq, Repr

/-- Modelled from the spec: paragraph direction (bidi-text algorithm.rs is
not among the sources). -/
inductive Direction where
  | LTR
  | RTL
deriving DecidableEq, Repr

inductive BidiClass where
  | strongL
  | strongR
  | neutral
deriving DecidableEq, Repr

/-- Modelled from the spec: strong-direction classification, restricted to
ASCII letters (strong L) and the Hebrew/Arabic blocks (strong R); all other
characters are neutral. -/
def bidiClassOf (c : Char) : BidiClass :=
  if 0x590 ≤ c.toNat ∧ c.toNat ≤ 0x6FF then .strongR
  else if c.isAlpha then .strongL
  else .neutral

def firstStrongLevel : List Char → Nat
  | [] => 0
  | c :: rest =>
    match bidiClassOf c with
    | .strongL => 0
    | .strongR => 1
    | .neutral => firstStrongLevel rest

/-- Modelled from the spec: the paragraph's base embedding level comes from
the override or from scanning for the first strong directional character. -/
def baseLevelOf (text : List Char) (override : Option Direction) : Nat :=
  match override with
  | some .LTR => 0
  | some .RTL => 1
  | none => firstStrongLevel text

/-- Modelled from the spec: implicit resolution — a strong character gets
the nearest level of its own parity at or above the base level, a neutral
takes the base level. -/
def levelOf (base : Nat) (c : Char) : Nat :=
  match bidiClassOf c with
  | .strongL => if base % 2 = 0 then base else base + 1
  | .strongR => if base % 2 = 1 then base else base + 1
  | .neutral => base

/-- Modelled from the spec: BidiParagraph — paragraph text with resolved
per-character embedding levels and a paragraph direction, built once. -/
structure BidiParagraph where
  text : List Char
  levels : List Nat
  paragraphDirection : Direction
deriving DecidableEq, Repr

def BidiParagraph.new (text : List Char) (override : Option Direction) : BidiParagraph :=
  let base := baseLevelOf text override
  { text := text
    levels := text.map (levelOf base)
    paragraphDirection := if base % 2 = 1 then .RTL else .LTR }

/-- Reverse every maximal contiguous run whose level is at least l
(the accumulator holds the current run already reversed). -/
def revRunsAux (l : Nat) (cur : List (Nat × Nat)) : List (Nat × Nat) → List (Nat × Nat)
  | [] => cur
  | x :: xs =>
    if l ≤ x.2 then revRunsAux l (x :: cur) xs
    else cur ++ x :: revRunsAux l [] xs

/-- Modelled from the spec: rule L2 — from the highest level down to 1,
reverse every contiguous run of characters at that level or higher. -/
def applyL2 : Nat → List (Nat × Nat) → List (Nat × Nat)
  | 0, xs => xs
  | l + 1, xs => applyL2 l (revRunsAux (l + 1) [] xs)

def maxLevel (levels : List Nat) : Nat := levels.foldr max 0

/-- Modelled from the spec: the visual order of the paragraph's character
indices after reordering. -/
def visualOrder (para : BidiParagraph) : List Nat :=
  (applyL2 (maxLevel para.levels)
    ((List.range para.text.length).zip para.levels)).map (fun x => x.1)

/-- Modelled from the spec: logical-to-visual caret mapping — the display
position of the logical character, with the one-past-the-end caret mapped
to itself. -/
def logical_to_visual (para : BidiParagraph) (i : Nat) : Nat :=
  if i < para.text.length then (visualOrder para).indexOf i else para.text.length

/-- Modelled from the spec: visual-to-logical caret mapping, the inverse
scan over the display order. -/
def visual_to_logical (para : BidiParagraph) (v : Nat) : Nat :=
  if v < para.text.length then (visualOrder para).getD v 0 else para.text.length

/-- CursorMovement::move_visual (cursor.rs, lines 22-80), translated
clause for clause.  Rust's byte positions are modelled as codepoint
positions (they coincide on the ASCII inputs the claims use).  Note the
empty-text early return precedes the direction match, and the catch-all
arm turns Up and Down into a ProcessingError. -/
def CursorMovement.move_visual (para : BidiParagraph) (logical_pos : Nat)
    (direction : MovementDirection) : Except BidiError Nat :=
  if para.text.isEmpty then .ok 0
  else
    match direction with
    | .Left =>
      if logical_pos = 0 then .ok 0
      else
        if logical_to_visual para logical_pos = 0 then .ok logical_pos
        else .ok (visual_to_logical para (logical_to_visual para logical_pos - 1))
    | .Right =>
      if logical_pos ≥ para.text.length then .ok para.text.length
      else
        if logical_to_visual para logical_pos ≥ para.text.length then .ok logical_pos
        else .ok (visual_to_logical para
          (min (logical_to_visual para logical_pos + 1) para.text.length))
    | .Home => .ok (visual_to_logical para 0)
    | .End => .ok (visual_to_logical para para.text.length)
    | _ => .error (.ProcessingError "Vertical movement not implemented for single paragraph")

/-- C6 (code bug): evaluated at the failing input of the repository's own
test test_home_end, Home from logical position 7 in "  Hello World" lands
at 0 (the visual start), not at 2 (the first non-whitespace column the
spec and the test require) — the Home arm implements plain home, not
smart-home. -/
theorem C6_home_not_smart :
    CursorMovement.move_visual (BidiParagraph.new ("  Hello World").toList none) 7 .Home =
      .ok 0 ∧ (0 : Nat) ≠ 2 := by
  decide

/-- C7 counterexample: on a paragraph with empty text, vertical movement
does NOT fail — the empty-text early return yields Ok 0 before the
direction is examined. -/
theorem C7_counterexample :
    CursorMovement.move_visual (BidiParagraph.new [] none) 0 .Up = .ok 0 ∧
    CursorMovement.move_visual (BidiParagraph.new [] none) 0 .Down = .ok 0 := by
  decide

/-- C7 (amended): for every paragraph whose text is non-empty and every
logical position, Up and Down through the single-paragraph move_visual
return a ProcessingError; for an empty paragraph the call returns Ok 0
instead. -/
theorem C7_vertical_error (para : BidiParagraph) (pos : Nat)
    (hne : para.text ≠ []) :
    CursorMovement.move_visual para pos .Up =
      .error (.ProcessingError "Vertical movement not implemented for single paragraph") ∧
    CursorMovement.move_visual para pos .Down =
      .error (.ProcessingError "Vertical movement not implemented for single paragraph") := by
  unfold CursorMovement.move_visual
  have hemp : para.text.isEmpty = false := by
    cases h : para.text with
    | nil => exact absurd h hne
    | cons a l => rfl
  rw [hemp]
  exact ⟨rfl, rfl⟩

/-- Witness for the amended C7 at a concrete input. -/
theorem C7_vertical_error_witness :
    CursorMovement.move_visual (BidiParagraph.new ("Hello").toList none) 3 .Up =
      .error (.ProcessingError "Vertical movement not implemented for single paragraph") ∧
    CursorMovement.move_visual (BidiParagraph.new ("Hello").toList none) 3 .Down =
      .error (.ProcessingError "Vertical movement not implemented for single paragraph") :=
  C7_vertical_error (BidiParagraph.new ("Hello").toList none) 3 (by decide)

/-- Modelled from the spec: the tag of an edit operation (operations.rs is
not among the sources; shapes follow the spec's data model and the
operations tests). -/
inductive OperationType where
  | Insert
  | Delete
  | Replace
deriving DecidableEq, Repr

/-- Modelled from the spec: EditOperation — tag, pre-edit range (`start`,
`end`, the latter written `stop` here), optional inserted and deleted text,
and the caret position after the edit. -/
structure EditOperation where
  op_type : OperationType
  start : Position
  stop : Position
  inserted_text : Option (List Char)
  deleted_text : Option (List Char)
  cursor_after : Position
deriving DecidableEq, Repr

/-- Modelled from the spec: EditOperation::insert — for an insert the range
end is the position after the inserted text, which forward typing also uses
as the caret position. -/
def EditOperation.insert (start : Position) (text : List Char)
    (cursor_after : Position) : EditOperation :=
  { op_type := .Insert, start := start, stop := cursor_after
    inserted_text := some text, deleted_text := none, cursor_after := cursor_after }

def EditOperation.delete (start stop : Position) (deleted : List Char)
    (cursor_after : Position) : EditOperation :=
  { op_type := .Delete, start := start, stop := stop
    inserted_text := none, deleted_text := some deleted, cursor_after := cursor_after }

def EditOperation.replace (start stop : Position) (deleted inserted : List Char)
    (cursor_after : Position) : EditOperation :=
  { op_type := .Replace, start := start, stop := stop
    inserted_text := some inserted, deleted_text := some deleted
    cursor_after := cursor_after }

/-- Modelled from the spec: the merge rule — same tag and spatial
adjacency; an Insert merges when the prior operation's end equals the new
operation's start, a Delete when the operations are contiguous in either
direction, and Replace never merges. -/
def EditOperation.can_merge_with (a b : EditOperation) : Bool :=
  match a.op_type, b.op_type with
  | .Insert, .Insert => decide (a.stop = b.start)
  | .Delete, .Delete => decide (a.start = b.stop) || decide (b.start = a.stop)
  | _, _ => false

/-- Modelled from the spec: UndoGroup — the ordered operations applied
together as one undo step. -/
structure UndoGroup where
  operations : List EditOperation
deriving DecidableEq, Repr

/-- Modelled from the spec: UndoHistory — undo and redo stacks (newest
group at the head) and the pending-boundary flag; the configured limits
play no part in the claims and are omitted. -/
structure UndoHistory where
  undoStack : List UndoGroup
  redoStack : List UndoGroup
  boundaryPending : Bool
deriving DecidableEq, Repr

def UndoHistory.new : UndoHistory := ⟨[], [], false⟩

/-- Modelled from the spec: record_operation — fold the operation into the
still-open group when no boundary is pending and the group's last operation
can merge with it, otherwise start a new group; recording clears the redo
stack and the pending boundary. -/
def UndoHistory.record_operation (h : UndoHistory) (op : EditOperation) : UndoHistory :=
  match h.undoStack with
  | g :: rest =>
    if h.boundaryPending = false ∧ (match g.operations.getLast? with
        | some last => last.can_merge_with op
        | none => false) = true then
      { undoStack := ⟨g.operations ++ [op]⟩ :: rest, redoStack := []
        boundaryPending := false }
    else
      { undoStack := ⟨[op]⟩ :: g :: rest, redoStack := [], boundaryPending := false }
  | [] => { undoStack := [⟨[op]⟩], redoStack := [], boundaryPending := false }

/-- Modelled from the spec: create_undo_boundary forces the next recorded
operation into a new group. -/
def UndoHistory.create_undo_boundary (h : UndoHistory) : UndoHistory :=
  { h with boundaryPending := true }

/-- Modelled from the spec: undo pops the newest group, moves it to the
redo stack, and hands it back for inverse application. -/
def UndoHistory.undo (h : UndoHistory) : UndoHistory × Option UndoGroup :=
  match h.undoStack with
  | [] => (h, none)
  | g :: rest => ({ h with undoStack := rest, redoStack := g :: h.redoStack }, some g)

/-- C5: recording two inserts with i2.start = i1.end and no boundary merges
them into one group, so a single undo hands back both; with a boundary
between them they form two groups needing two undos; and in general two
operations merge exactly when they share a tag other than Replace and are
spatially adjacent. -/
theorem C5_merge_and_boundary (s1 s2 c1 c2 : Position) (t1 t2 : List Char)
    (a b : EditOperation)
    (hadj : (EditOperation.insert s1 t1 c1).stop = (EditOperation.insert s2 t2 c2).start) :
    (((UndoHistory.new.record_operation (EditOperation.insert s1 t1 c1)).record_operation
        (EditOperation.insert s2 t2 c2)).undo =
      (⟨[], [⟨[EditOperation.insert s1 t1 c1, EditOperation.insert s2 t2 c2]⟩], false⟩,
       some ⟨[EditOperation.insert s1 t1 c1, EditOperation.insert s2 t2 c2]⟩)) ∧
    ((((UndoHistory.new.record_operation
          (EditOperation.insert s1 t1 c1)).create_undo_boundary).record_operation
        (EditOperation.insert s2 t2 c2)).undo =
      (⟨[⟨[EditOperation.insert s1 t1 c1]⟩], [⟨[EditOperation.insert s2 t2 c2]⟩], false⟩,
       some ⟨[EditOperation.insert s2 t2 c2]⟩)) ∧
    (((((UndoHistory.new.record_operation
          (EditOperation.insert s1 t1 c1)).create_undo_boundary).record_operation
        (EditOperation.insert s2 t2 c2)).undo).1.undo =
      (⟨[], [⟨[EditOperation.insert s1 t1 c1]⟩, ⟨[EditOperation.insert s2 t2 c2]⟩], false⟩,
       some ⟨[EditOperation.insert s1 t1 c1]⟩)) ∧
    (a.can_merge_with b = true ↔
      ((a.op_type = .Insert ∧ b.op_type = .Insert ∧ a.stop = b.start) ∨
       (a.op_type = .Delete ∧ b.op_type = .Delete ∧
         (a.start = b.stop ∨ b.start = a.stop)))) := by
  have hadj2 : c1 = s2 := hadj
  have hmerge : (EditOperation.insert s1 t1 c1).can_merge_with
      (EditOperation.insert s2 t2 c2) = true := by
    unfold EditOperation.can_merge_with EditOperation.insert
    dsimp only
    rw [hadj2]
    simp
  refine ⟨?_, ?_, ?_, ?_⟩
  · unfold UndoHistory.new UndoHistory.record_operation UndoHistory.undo
    dsimp only
    rw [if_pos ⟨rfl, by simpa using hmerge⟩]
    rfl
  · unfold UndoHistory.new UndoHistory.record_operation
      UndoHistory.create_undo_boundary UndoHistory.undo
    dsimp only
    rw [if_neg (by intro hcon; exact absurd hcon.1 (by simp))]
  · unfold UndoHistory.new UndoHistory.record_operation
      UndoHistory.create_undo_boundary UndoHistory.undo
    dsimp only
    rw [if_neg (by intro hcon; exact absurd hcon.1 (by simp))]
  · unfold EditOperation.can_merge_with
    cases ha : a.op_type <;> cases hb : b.op_type <;> simp

/-- The two inserts of the repository's test_operation_merging. -/
def c5op1 : EditOperation := EditOperation.insert ⟨0, 0⟩ ['H'] ⟨0, 1⟩

def c5op2 : EditOperation := EditOperation.insert ⟨0, 1⟩ ['e'] ⟨0, 2⟩

/-- Witness for C5 at the inputs of test_operation_merging. -/
theorem C5_merge_and_boundary_witness :
    (((UndoHistory.new.record_operation c5op1).record_operation c5op2).undo =
      (⟨[], [⟨[c5op1, c5op2]⟩], false⟩, some ⟨[c5op1, c5op2]⟩)) ∧
    ((((UndoHistory.new.record_operation c5op1).create_undo_boundary).record_operation
        c5op2).undo =
      (⟨[⟨[c5op1]⟩], [⟨[c5op2]⟩], false⟩, some ⟨[c5op2]⟩)) ∧
    (((((UndoHistory.new.record_operation c5op1).create_undo_boundary).record_operation
        c5op2).undo).1.undo =
      (⟨[], [⟨[c5op1]⟩, ⟨[c5op2]⟩], false⟩, some ⟨[c5op1]⟩)) ∧
    (c5op1.can_merge_with c5op2 = true ↔
      ((c5op1.op_type = .Insert ∧ c5op2.op_type = .Insert ∧ c5op1.stop = c5op2.start) ∨
       (c5op1.op_type = .Delete ∧ c5op2.op_type = .Delete ∧
         (c5op1.start = c5op2.stop ∨ c5op2.start = c5op1.stop)))) :=
  C5_merge_and_boundary ⟨0, 0⟩ ⟨0, 1⟩ ⟨0, 1⟩ ⟨0, 2⟩ ['H'] ['e'] c5op1 c5op2 (by decide)

/-- Modelled from the spec: selection granularity (selection.rs is not
among the sources; shapes follow the spec's data model and the selection
tests). -/
inductive Granularity where
  | Character
  | Word
  | Line
deriving DecidableEq, Repr

/-- Modelled from the spec: Selection — anchor, head and granularity;
collapsed when anchor = head, forward when anchor ≤ head. -/
structure Selection where
  anchor : Position
  head : Position
  granularity : Granularity
deriving DecidableEq, Repr

def Selection.collapsed (pos : Position) : Selection := ⟨pos, pos, .Character⟩

def Selection.new (anchor head : Position) : Selection := ⟨anchor, head, .Character⟩

def posMin (p q : Position) : Position := if posLe p q then p else q

def posMax (p q : Position) : Position := if posLe p q then q else p

/-- Modelled from the spec: range() returns (min(anchor,head),
max(anchor,head)) regardless of direction. -/
def Selection.range (s : Selection) : Position × Position :=
  (posMin s.anchor s.head, posMax s.anchor s.head)

/-- Modelled from the spec: two selections overlap when their ranges
intersect, inclusive of touching endpoints. -/
def Selection.overlaps (a b : Selection) : Bool :=
  posLe (a.range).1 (b.range).2 && posLe (b.range).1 (a.range).2

/-- Modelled from the spec: the spanning selection covering two overlapping
selections — the union of their ranges. -/
def Selection.span (a b : Selection) : Selection :=
  ⟨posMin (a.range).1 (b.range).1, posMax (a.range).2 (b.range).2, a.granularity⟩

/-- Modelled from the spec: SelectionSet — one primary selection plus
secondary selections, so the set is never empty. -/
structure SelectionSet where
  primary : Selection
  secondary : List Selection
deriving DecidableEq, Repr

def SelectionSet.new (s : Selection) : SelectionSet := ⟨s, []⟩

def SelectionSet.selections (s : SelectionSet) : List Selection :=
  s.primary :: s.secondary

/-- Find the first later selection overlapping `s`, removing it. -/
def extractOverlap (s : Selection) : List Selection → Option (Selection × List Selection)
  | [] => none
  | t :: ts =>
    if s.overlaps t then some (t, ts)
    else
      match extractOverlap s ts with
      | some (u, us) => some (u, t :: us)
      | none => none

/-- One pairwise-scan step: replace the first overlapping pair by its
spanning selection; none when no pair overlaps. -/
def findMerge : List Selection → Option (List Selection)
  | [] => none
  | s :: rest =>
    match extractOverlap s rest with
    | some (t, rest2) => some (Selection.span s t :: rest2)
    | none =>
      match findMerge rest with
      | some l => some (s :: l)
      | none => none

/-- Repeat the scan until no pair overlaps; each step removes one
selection, so the list length is enough fuel. -/
def mergeLoop : Nat → List Selection → List Selection
  | 0, l => l
  | n + 1, l =>
    match findMerge l with
    | none => l
    | some l2 => mergeLoop n l2

/-- Modelled from the spec: merge_overlapping — any two selections whose
ranges intersect (inclusive of touching endpoints) collapse into one
spanning selection, repeated until no pair overlaps; the result set is
never empty. -/
def SelectionSet.merge_overlapping (s : SelectionSet) : SelectionSet :=
  match mergeLoop (s.primary :: s.secondary).length (s.primary :: s.secondary) with
  | p :: rest => ⟨p, rest⟩
  | [] => ⟨s.primary, []⟩

theorem extractOverlap_length : ∀ {s : Selection} {l : List Selection}
    {t : Selection} {ts : List Selection},
    extractOverlap s l = some (t, ts) → ts.length + 1 = l.length
  | s, [], t, ts, h => by simp [extractOverlap] at h
  | s, u :: us, t, ts, h => by
    unfold extractOverlap at h
    by_cases ho : s.overlaps u
    · rw [if_pos ho] at h
      injection h with h
      injection h with h1 h2
      rw [← h2]
      simp
    · rw [if_neg ho] at h
      cases he : extractOverlap s us with
      | none => rw [he] at h; simp at h
      | some p =>
        rw [he] at h
        obtain ⟨p1, p2⟩ := p
        dsimp only at h
        injection h with h
        injection h with h1 h2
        have ih := extractOverlap_length he
        rw [← h2]
        simp only [List.length_cons] at ih ⊢
        omega

theorem extractOverlap_none : ∀ {s : Selection} {l : List Selection},
    extractOverlap s l = none → ∀ t ∈ l, s.overlaps t = false
  | s, [], h => by intro t ht; simp at ht
  | s, u :: us, h => by
    intro t ht
    unfold extractOverlap at h
    by_cases ho : s.overlaps u
    · rw [if_pos ho] at h
      simp at h
    · rw [if_neg ho] at h
      rcases List.mem_cons.mp ht with ht | ht
      · rw [ht]
        simpa using ho
      · cases he : extractOverlap s us with
        | none => exact extractOverlap_none he t ht
        | some p =>
          rw [he] at h
          obtain ⟨p1, p2⟩ := p
          simp at h

theorem findMerge_length : ∀ {l l2 : List Selection},
    findMerge l = some l2 → l2.length + 1 = l.length
  | [], l2, h => by simp [findMerge] at h
  | s :: rest, l2, h => by
    unfold findMerge at h
    cases he : extractOverlap s rest with
    | some p =>
      rw [he] at h
      obtain ⟨t, rest2⟩ := p
      dsimp only at h
      injection h with h
      have hl := extractOverlap_length he
      rw [← h]
      simp only [List.length_cons] at hl ⊢
      omega
    | none =>
      rw [he] at h
      cases hf : findMerge rest with
      | none => rw [hf] at h; simp at h
      | some l3 =>
        rw [hf] at h
        dsimp only at h
        injection h with h
        have ih := findMerge_length hf
        rw [← h]
        simp only [List.length_cons] at ih ⊢
        omega

theorem findMerge_none_pairwise : ∀ {l : List Selection},
    findMerge l = none → List.Pairwise (fun a b => a.overlaps b = false) l
  | [], _ => List.Pairwise.nil
  | s :: rest, h => by
    unfold findMerge at h
    cases he : extractOverlap s rest with
    | some p =>
      rw [he] at h
      obtain ⟨t, rest2⟩ := p
      simp at h
    | none =>
      rw [he] at h
      cases hf : findMerge rest with
      | some l3 => rw [hf] at h; simp at h
      | none =>
        exact List.Pairwise.cons (extractOverlap_none he) (findMerge_none_pairwise hf)

theorem findMerge_some_ne_nil : ∀ {l l2 : List Selection},
    findMerge l = some l2 → l2 ≠ []
  | [], l2, h => by simp [findMerge] at h
  | s :: rest, l2, h => by
    unfold findMerge at h
    cases he : extractOverlap s rest with
    | some p =>
      rw [he] at h
      obtain ⟨t, rest2⟩ := p
      dsimp only at h
      injection h with h
      rw [← h]
      simp
    | none =>
      rw [he] at h
      cases hf : findMerge rest with
      | none => rw [hf] at h; simp at h
      | some l3 =>
        rw [hf] at h
        dsimp only at h
        injection h with h
        rw [← h]
        simp

theorem mergeLoop_fixpoint : ∀ (n : Nat) (l : List Selection), l.length ≤ n →
    findMerge (mergeLoop n l) = none
  | 0, l, hl => by
    have : l = [] := List.length_eq_zero.mp (by omega)
    rw [this]
    rfl
  | n + 1, l, hl => by
    unfold mergeLoop
    cases hf : findMerge l with
    | none => exact hf
    | some l2 =>
      have hlen := findMerge_length hf
      exact mergeLoop_fixpoint n l2 (by omega)

theorem mergeLoop_ne_nil : ∀ (n : Nat) {l : List Selection}, l ≠ [] →
    mergeLoop n l ≠ []
  | 0, l, hl => hl
  | n + 1, l, hl => by
    unfold mergeLoop
    cases hf : findMerge l with
    | none => exact hl
    | some l2 => exact mergeLoop_ne_nil n (findMerge_some_ne_nil hf)

theorem mergeLoop_of_none {n : Nat} {l : List Selection} (h : findMerge l = none) :
    mergeLoop n l = l := by
  cases n with
  | zero => rfl
  | succ n =>
    unfold mergeLoop
    rw [h]

/-- C10: merge_overlapping is idempotent, leaves no two selections with
intersecting ranges (inclusive of touching endpoints), and never yields an
empty selection set. -/
theorem C10_merge_overlapping (S : SelectionSet) :
    (S.merge_overlapping).merge_overlapping = S.merge_overlapping ∧
    List.Pairwise (fun a b => a.overlaps b = false)
      (S.merge_overlapping).selections ∧
    (S.merge_overlapping).selections ≠ [] := by
  have hfix : findMerge (mergeLoop (S.primary :: S.secondary).length
      (S.primary :: S.secondary)) = none :=
    mergeLoop_fixpoint _ _ (Nat.le_refl _)
  have hne : mergeLoop (S.primary :: S.secondary).length
      (S.primary :: S.secondary) ≠ [] :=
    mergeLoop_ne_nil _ (by simp)
  cases hres : mergeLoop (S.primary :: S.secondary).length
      (S.primary :: S.secondary) with
  | nil => exact absurd hres hne
  | cons p rest =>
    have hmerge1 : S.merge_overlapping = ⟨p, rest⟩ := by
      unfold SelectionSet.merge_overlapping
      rw [hres]
    rw [hres] at hfix
    refine ⟨?_, ?_, ?_⟩
    · rw [hmerge1]
      unfold SelectionSet.merge_overlapping
      dsimp only
      rw [mergeLoop_of_none hfix]
    · rw [hmerge1]
      unfold SelectionSet.selections
      dsimp only
      exact findMerge_none_pairwise hfix
    · rw [hmerge1]
      unfold SelectionSet.selections
      simp

end Ed
